import Mathlib

/-!
  Verification development for the place-coin core ledger (Rust crate
  place-coin-core).  The definitions below are a shallow embedding of the
  crate's data model and operations; external crates (sha3, bincode, bs58,
  k256) appear as explicit function parameters, since their code is not part
  of this repository.  Machine integers: Credits is the Rust i64, modelled as
  Int (no claim here turns on wrap-around); u128 proofs are Nat bounded by
  the search range; bytes are Fin 256.
-/

deriving instance DecidableEq for Except

namespace PlaceCoin

/-- A byte, as used throughout the crate (u8). -/
abbrev Byte := Fin 256

/-- A 32-byte digest (blockchain.rs: pub type Hash = [u8; 32]). -/
def Hash : Type := { l : List Byte // l.length = 32 }

instance : DecidableEq Hash := Subtype.instDecidableEq

/-- The all-zero hash, used as a default value. -/
def zeroHash : Hash := ⟨List.replicate 32 0, by simp⟩

instance : Inhabited Hash := ⟨zeroHash⟩

/-- Build a hash from a byte list by right-padding with zeros and truncating
to 32 bytes; used to build concrete hash values and toy hash functions for
closed evaluations. -/
def padHash (l : List Byte) : Hash :=
  ⟨(l ++ List.replicate 32 0).take 32, by
    simp [List.length_take, List.length_append]⟩

/-- A 64-byte ECDSA signature (transaction.rs: struct Signature([u8; 64])). -/
def Sig : Type := { l : List Byte // l.length = 64 }

instance : DecidableEq Sig := Subtype.instDecidableEq

/-- The all-zero signature value. -/
def zeroSig : Sig := ⟨List.replicate 64 0, by simp⟩

instance : Inhabited Sig := ⟨zeroSig⟩

/-- transaction.rs: pub type Credits = i64. -/
abbrev Credits := Int

/-- blockchain.rs: pub type Proof = u128. -/
abbrev Proof := Nat

/-- address.rs: pub type PrivateKey = Hash; pub type PublicKey = PrivateKey. -/
abbrev PrivateKey := Hash

/-- address.rs: public keys share the representation of private keys. -/
abbrev PublicKey := Hash

/-- Little-endian byte rendering of a natural number at a fixed width,
modelling the Rust to_le_bytes calls. -/
def natToLeBytes : Nat → Nat → List Byte
  | 0, _ => []
  | w + 1, n => (⟨n % 256, by omega⟩ : Byte) :: natToLeBytes w (n / 256)

/-- transaction.rs: pub type Point = (i32, i32). -/
abbrev Point := Int × Int

/-- transaction.rs: pub type Color = (u8, u8, u8). -/
abbrev ColorRGB := Byte × Byte × Byte

/-- transaction.rs: const CURRENT_TRANSACTION_VERSION: u32 = 0. -/
def CURRENT_TRANSACTION_VERSION : Nat := 0

/-- transaction.rs, enum TransactionInput.  The fromOutput variant carries
the spender's public key and signature exactly as declared in
transaction.rs; blockchain.rs pattern-matches only the hash and index
fields of this variant. -/
inductive TransactionInput
  | fromOutput (transaction_hash : Hash) (output_index : Nat)
      (public_key : PublicKey) (signature : Sig)
  | fromReward (height : Nat) (value : Credits)
  deriving DecidableEq

/-- transaction.rs, enum TransactionOutput.  transaction.rs declares the
recipient field of the toInput variant as an Address while blockchain.rs
constructs and reads it as a 32-byte public-key hash (the two files are
from adjacent iterations of the crate); all ledger operations the claims
cite use the hash form, which is the one embedded here, matching the data
model section of the specification. -/
inductive TransactionOutput
  | toInput (value : Credits) (public_key_hash : Hash)
  | toPixel (value : Credits) (position : Point) (color : ColorRGB)
  deriving DecidableEq

/-- transaction.rs, struct TransactionData. -/
structure TransactionData where
  version : Nat
  inputs : List TransactionInput
  outputs : List TransactionOutput
  lock_time : Nat
  deriving DecidableEq

/-- transaction.rs, struct Transaction: the data plus the derived balance
and the derived sha3 hash of the bincode encoding of the data. -/
structure Transaction where
  data : TransactionData
  balance : Credits
  hash : Hash
  deriving DecidableEq

/-- The error outcomes of Transaction::try_new.  The Rust code reports these
via anyhow string messages; the constructor names follow the error
vocabulary of the specification, in the order the messages appear in
transaction.rs: missing referenced transaction, missing output index,
pixel output referenced as currency, and negative balance. -/
inductive TxError
  | unknownInput
  | outputIndexOutOfRange
  | outputTypeMismatch
  | insufficientInputValue
  deriving DecidableEq

/-- Errors of the ledger operations.  blockchain.rs mixes anyhow errors and
panics (unwrap calls): the lastBlockMissing and proofNotFound constructors
model the two unwrap panics in get_last_block and proof_of_work, the
blockHeightUnresolvable constructor the height-derivation failure the
specification names, and tx wraps a construction error propagated from
Transaction::try_new. -/
inductive ChainError
  | blockHeightUnresolvable
  | lastBlockMissing
  | proofNotFound
  | tx (e : TxError)
  deriving DecidableEq

/-- Modelled from the spec: the current Block shape.  src/ block.rs is a
stale iteration (it stores an explicit index and an older transaction
enum) that does not type-check against blockchain.rs, which constructs
blocks as Block::new(transactions, proof, previous_hash); the data model
section of the specification gives the current shape embedded here:
timestamp, transactions, proof, optional previous hash.  The timestamp
(Utc::now() in Rust) is threaded as an explicit argument. -/
structure Blk where
  timestamp : Int
  transactions : List Transaction
  proof : Proof
  previous_hash : Option Hash
  deriving DecidableEq

/-- True on the fromReward input variant. -/
def isRewardInput : TransactionInput → Bool
  | .fromReward _ _ => true
  | _ => false

/-- Modelled from the spec: Block::get_block_height, called by
Blockchain::mine but absent from src/ (block.rs is a stale iteration).
Per the specification, block height is not stored: it is recovered from
the height carried by the final transaction's reward input; the genesis
block (no transactions, no previous hash) has height zero by convention,
and a non-genesis block whose height cannot be derived fails with
BlockHeightUnresolvable. -/
def Blk.get_block_height (b : Blk) : Except ChainError Nat :=
  match b.transactions.getLast? with
  | none =>
      match b.previous_hash with
      | none => .ok 0
      | some _ => .error .blockHeightUnresolvable
  | some t =>
      match t.data.inputs.find? isRewardInput with
      | some (.fromReward h _) => .ok h
      | _ => .error .blockHeightUnresolvable

/-- blockchain.rs, struct Blockchain.  The Rust HashMap of blocks keyed by
hash is modelled as an association list with replace-on-insert semantics
(insertAssoc below), which reproduces HashMap lookup and single-entry-per-
key iteration. -/
structure Blockchain where
  miner_public_key_hash : Hash
  blocks : List (Hash × Blk)
  transactions : List Transaction
  last_block_hash : Hash
  deriving DecidableEq

/-- HashMap::insert: add the binding and drop any previous binding of the
same key. -/
def insertAssoc (k : Hash) (v : Blk) (m : List (Hash × Blk)) :
    List (Hash × Blk) :=
  (k, v) :: m.filter (fun p => ¬(p.1 = k))

/-- HashMap::get on the block map. -/
def Blockchain.lookupBlock (bc : Blockchain) (h : Hash) : Option Blk :=
  (bc.blocks.find? (fun p => p.1 = h)).map Prod.snd

/-- Every transaction of every block, in iteration order: the flat_map
over the block map that blockchain.rs repeats in get_peer_credits,
get_all_unspent_outputs, find_transaction and is_output_spent. -/
def Blockchain.chainTxs (bc : Blockchain) : List Transaction :=
  (bc.blocks.map Prod.snd).flatMap Blk.transactions

/-- blockchain.rs, Blockchain::find_transaction: linear scan of every
block's transactions for a matching hash (find_any picks an arbitrary
match in Rust; the embedding returns the first). -/
def Blockchain.find_transaction (bc : Blockchain) (transaction_hash : Hash) :
    Option Transaction :=
  bc.chainTxs.find? (fun t => t.hash = transaction_hash)

/-- blockchain.rs, Blockchain::is_output_spent: an output slot is spent iff
some fromOutput input anywhere in the chain references it; fromReward
inputs never mark anything spent. -/
def Blockchain.is_output_spent (bc : Blockchain) (transaction_hash : Hash)
    (output_index : Nat) : Bool :=
  (bc.chainTxs.flatMap (fun t => t.data.inputs)).any fun input =>
    match input with
    | .fromOutput h i _ _ => i = output_index ∧ h = transaction_hash
    | .fromReward _ _ => false

/-- blockchain.rs, Blockchain::new_transaction: push the transaction onto
the pending pool.  The Rust function performs no validation of any kind and
always returns Ok(()). -/
def Blockchain.new_transaction (bc : Blockchain) (t : Transaction) :
    Except ChainError Blockchain :=
  .ok { bc with transactions := bc.transactions ++ [t] }

/-- blockchain.rs, Blockchain::get_all_unspent_outputs: every toInput
output of every chain transaction, paired with its transaction and output
index, excluding slots some chain input references; toPixel outputs are
never yielded. -/
def Blockchain.get_all_unspent_outputs (bc : Blockchain) :
    List (Transaction × TransactionOutput × Nat) :=
  bc.chainTxs.flatMap fun t =>
    t.data.outputs.enum.filterMap fun p =>
      match p.2 with
      | .toInput v k =>
          if bc.is_output_spent t.hash p.1 then none
          else some (t, .toInput v k, p.1)
      | .toPixel _ _ _ => none

/-- The per-input resolution step of Transaction::try_new
(transaction.rs lines 69-95): a fromOutput input is resolved against the
ledger (unknownInput if the referenced transaction is absent,
outputIndexOutOfRange if the output index is absent, outputTypeMismatch if
the referenced output is a toPixel) and yields the referenced toInput
value; a fromReward input yields its declared value with no lookup. -/
def resolveInput (bc : Blockchain) : TransactionInput → Except TxError Credits
  | .fromOutput h i _ _ =>
      match bc.find_transaction h with
      | none => .error .unknownInput
      | some input_transaction =>
          match input_transaction.data.outputs.get? i with
          | none => .error .outputIndexOutOfRange
          | some (.toInput v _) => .ok v
          | some (.toPixel _ _ _) => .error .outputTypeMismatch

  | .fromReward _ v => .ok v

/-- The value an output draws from the balance (transaction.rs lines
100-106): toInput and toPixel values alike. -/
def outputValue : TransactionOutput → Credits
  | .toInput v _ => v
  | .toPixel v _ _ => v

/-- The sum of all output values of a list. -/
def outputTotal (outputs : List TransactionOutput) : Credits :=
  (outputs.map outputValue).sum

/-- transaction.rs, Transaction::try_new: resolve every input in order
(the map + collect short-circuits at the first failing input), sum the
resolved input values and all output values, reject a negative balance
with insufficientInputValue, and otherwise build the transaction with its
derived balance and its sha3 hash of the bincode encoding of the data.
The sha3 digest and the bincode encoding are external crates, passed as
the parameters sha3 and encodeTx. -/
def Transaction.try_new (sha3 : List Byte → Hash)
    (encodeTx : TransactionData → List Byte) (bc : Blockchain)
    (inputs : List TransactionInput) (outputs : List TransactionOutput)
    (lock_time : Nat) : Except TxError Transaction := do
  let vals ← inputs.mapM (resolveInput bc)
  let input_value : Credits := vals.sum
  let output_value : Credits := outputTotal outputs
  let balance := input_value - output_value
  if balance < 0 then
    .error .insufficientInputValue
  else
    let data : TransactionData :=
      ⟨CURRENT_TRANSACTION_VERSION, inputs, outputs, lock_time⟩
    .ok ⟨data, balance, sha3 (encodeTx data)⟩

/-- blockchain.rs, Blockchain::validate_proof: sha3 over the little-endian
bytes of the previous proof followed by those of the candidate, accepting
the candidate iff every byte among the first one of the digest is zero. -/
def validate_proof (sha3 : List Byte → Hash) (last_proof proof : Proof) :
    Bool :=
  let digest := sha3 (natToLeBytes 16 last_proof ++ natToLeBytes 16 proof)
  (digest.val.take 1).all fun e => e == 0

/-- The brute-force scan inside Blockchain::proof_of_work: try candidates
in increasing order while fuel remains (find_any returns an arbitrary
satisfying candidate in Rust; the embedding returns the first). -/
def searchFrom (sha3 : List Byte → Hash) (last_proof : Proof) :
    Proof → Nat → Option Proof
  | _, 0 => none
  | c, fuel + 1 =>
      if validate_proof sha3 last_proof c then some c
      else searchFrom sha3 last_proof (c + 1) fuel

/-- blockchain.rs, Blockchain::proof_of_work: scan the range 0..u128::MAX
(exclusive upper bound, hence 2^128 - 1 candidates) for a proof validating
against the last block's proof.  The two unwrap panics (missing last
block, empty search result) are modelled as none. -/
def Blockchain.proof_of_work (sha3 : List Byte → Hash) (bc : Blockchain) :
    Option Proof :=
  (bc.lookupBlock bc.last_block_hash).bind fun last_block =>
    searchFrom sha3 last_block.proof 0 (2 ^ 128 - 1)

/-- blockchain.rs: const BLOCK_LOCK_TIME: u32 = 0. -/
def BLOCK_LOCK_TIME : Nat := 0

/-- blockchain.rs, Blockchain::new: a genesis block with no transactions,
seed proof 100 and no previous hash, inserted under its own hash, which
becomes the last block hash.  The block hashing function (Block::
calculate_hash, the sha3 of the block's canonical encoding) is passed as
the parameter blockHash, and the genesis timestamp as now. -/
def Blockchain.new (blockHash : Blk → Hash) (now : Int)
    (miner_public_key_hash : Hash) : Blockchain :=
  let genesis_block : Blk := ⟨now, [], 100, none⟩
  let genesis_block_hash := blockHash genesis_block
  { miner_public_key_hash
    blocks := [(genesis_block_hash, genesis_block)]
    transactions := []
    last_block_hash := genesis_block_hash }

/-- blockchain.rs, Blockchain::mine: drain the pending pool, compute the
block reward as 1000 plus the sum of the drained transactions' balances,
build the reward transaction (a single fromReward input at the previous
block's height plus one and a single toInput output paying the miner)
through Transaction::try_new, append it after the drained transactions,
search for a proof of work, seal the new block with the previous last
block hash, insert it under its own hash and advance the last block hash.
The new block's timestamp is the explicit argument now. -/
def Blockchain.mine (sha3 : List Byte → Hash)
    (encodeTx : TransactionData → List Byte) (blockHash : Blk → Hash)
    (bc : Blockchain) (now : Int) : Except ChainError Blockchain :=
  let drained := bc.transactions
  let bcDrained : Blockchain := { bc with transactions := [] }
  let total_unspent_outputs : Credits := (drained.map Transaction.balance).sum
  let block_reward := 1000 + total_unspent_outputs
  match bcDrained.lookupBlock bcDrained.last_block_hash with
  | none => .error .lastBlockMissing
  | some last_block =>
      match last_block.get_block_height with
      | .error e => .error e
      | .ok height =>
          let inputs := [TransactionInput.fromReward (height + 1) block_reward]
          let outputs :=
            [TransactionOutput.toInput block_reward bc.miner_public_key_hash]
          match Transaction.try_new sha3 encodeTx bcDrained inputs outputs
              BLOCK_LOCK_TIME with
          | .error e => .error (.tx e)
          | .ok reward_transaction =>
              let transactions := drained ++ [reward_transaction]
              match bcDrained.proof_of_work sha3 with
              | none => .error .proofNotFound
              | some proof =>
                  let new_block : Blk :=
                    ⟨now, transactions, proof, some bc.last_block_hash⟩
                  let new_block_hash := blockHash new_block
                  .ok { bc with
                        blocks := insertAssoc new_block_hash new_block bc.blocks
                        transactions := []
                        last_block_hash := new_block_hash }

/-- address.rs: const CURRENT_VERSION: u8 = 0 (the address version byte;
distinct from the crate-level CURRENT_VERSION in lib.rs). -/
def ADDRESS_CURRENT_VERSION : Byte := 0

/-- address.rs, struct Address: a wrapper around the base58-encoded text.
The bs58 transport representation (a Rust String) is abstracted as the
type parameter B58, since the bs58 crate is external. -/
structure Address (B58 : Type) where
  base58 : B58

/-- Convert a byte list to a 32-byte hash, defaulting on a length mismatch:
the model of the slice try_into().unwrap_or_default() call in
Address::validate. -/
def listToHash (l : List Byte) : Hash :=
  if h : l.length = 32 then ⟨l, h⟩ else zeroHash

/-- address.rs, Address::calculate_checksum: the first four bytes of the
double sha3 of the version byte followed by the public-key hash. -/
def calculate_checksum (sha3 : List Byte → Hash) (version : Byte)
    (public_key_hash : Hash) : List Byte :=
  let hash := sha3 (version :: public_key_hash.val)
  let hash2 := sha3 hash.val
  hash2.val.take 4

/-- address.rs, Address::from_private_key: derive the public key from the
private key with the k256 crate, serialize it with bincode, sha3-hash the
bytes, concatenate version byte, public-key hash and checksum, and base58-
encode the result.  The k256 public-key derivation composed with the
bincode serialization is the external parameter publicKeyBytes; it returns
none exactly when SecretKey::from_be_bytes rejects the scalar, where the
Rust code panics on its unwrap, so the embedding returns none there. -/
def Address.from_private_key {B58 : Type} (sha3 : List Byte → Hash)
    (publicKeyBytes : PrivateKey → Option (List Byte))
    (bs58encode : List Byte → B58) (private_key : PrivateKey) :
    Option (Address B58) :=
  (publicKeyBytes private_key).map fun public_key_bytes =>
    let public_key_hash := sha3 public_key_bytes
    let checksum :=
      calculate_checksum sha3 ADDRESS_CURRENT_VERSION public_key_hash
    let value :=
      ADDRESS_CURRENT_VERSION :: public_key_hash.val ++ checksum
    ⟨bs58encode value⟩

/-- address.rs, Address::from_string: wrap the raw text without any
validation. -/
def Address.from_string {B58 : Type} (base58 : B58) : Address B58 :=
  ⟨base58⟩

/-- address.rs, Address::validate: decode the base58 text (false on a
decode error), check the decoded length is exactly 1 + 32 + 4 bytes, check
the version byte, recompute the checksum over the version and public-key
hash bytes and compare its first four bytes with the stored checksum
bytes; true only when every check passes.  All fallible steps are explicit
(the one unwrap_or_default in the Rust code defaults instead of
panicking), so the function is total. -/
def Address.validate {B58 : Type} (sha3 : List Byte → Hash)
    (bs58decode : B58 → Option (List Byte)) (a : Address B58) : Bool :=
  match bs58decode a.base58 with
  | none => false
  | some address =>
      if address.length = 1 + 32 + 4 then
        let version := address.headI
        let public_key_hash := (address.drop 1).take 32
        let checksum := address.drop 33
        if version = ADDRESS_CURRENT_VERSION then
          let check :=
            (calculate_checksum sha3 version (listToHash public_key_hash)).take 4
          if check = checksum then true else false
        else false
      else false

/-- The output slots (referenced transaction hash and output index) a
transaction's fromOutput inputs reference. -/
def txRefs (t : Transaction) : List (Hash × Nat) :=
  t.data.inputs.filterMap fun i =>
    match i with
    | .fromOutput h idx _ _ => some (h, idx)
    | .fromReward _ _ => none

/-- Every slot referenced by some fromOutput input of some chain
transaction: exactly the slots Blockchain::is_output_spent reports spent. -/
def Blockchain.chainRefs (bc : Blockchain) : List (Hash × Nat) :=
  bc.chainTxs.flatMap txRefs

/-- Every slot referenced from the pending pool. -/
def Blockchain.poolRefs (bc : Blockchain) : List (Hash × Nat) :=
  bc.transactions.flatMap txRefs

/-- The hashes of all chain transactions. -/
def Blockchain.chainTxHashes (bc : Blockchain) : List Hash :=
  bc.chainTxs.map Transaction.hash

/-- The hashes of all pending-pool transactions. -/
def Blockchain.poolTxHashes (bc : Blockchain) : List Hash :=
  bc.transactions.map Transaction.hash

/-- The slot an indexed output creates under a given transaction hash:
toInput outputs create a keyed spendable slot, toPixel outputs none. -/
def slotOf (h : Hash) (p : Nat × TransactionOutput) :
    Option ((Hash × Nat) × Credits) :=
  match p.2 with
  | .toInput v _ => some ((h, p.1), v)
  | .toPixel _ _ _ => none

/-- The spendable (toInput) output slots a transaction creates, each as its
slot key (the transaction's hash and the output index) and its value. -/
def txSlots (t : Transaction) : List ((Hash × Nat) × Credits) :=
  t.data.outputs.enum.filterMap (slotOf t.hash)

/-- All spendable output slots across the chain. -/
def Blockchain.chainSlots (bc : Blockchain) : List ((Hash × Nat) × Credits) :=
  bc.chainTxs.flatMap txSlots

/-- The total value of all unspent toInput outputs across the chain: the
sum of the values yielded by get_all_unspent_outputs, exactly the sum the
crate's own test takes over that iterator. -/
def Blockchain.unspentValueSum (bc : Blockchain) : Credits :=
  (bc.get_all_unspent_outputs.map fun x => outputValue x.2.1).sum

/-- The value an output locks into a pixel (zero for toInput outputs). -/
def pixelValue : TransactionOutput → Credits
  | .toPixel v _ _ => v
  | .toInput _ _ => 0

/-- The spendable value an output creates (zero for toPixel outputs). -/
def toInputValue : TransactionOutput → Credits
  | .toInput v _ => v
  | .toPixel _ _ _ => 0

/-- The total value a transaction locks into toPixel outputs. -/
def Transaction.pixelTotalTx (t : Transaction) : Credits :=
  (t.data.outputs.map pixelValue).sum

/-- The total value locked into toPixel outputs across the chain. -/
def Blockchain.pixelTotal (bc : Blockchain) : Credits :=
  (bc.chainTxs.map Transaction.pixelTotalTx).sum

/-- The total value of the fromReward inputs of a transaction. -/
def rewardInputTotal (t : Transaction) : Credits :=
  (t.data.inputs.map fun i =>
    match i with
    | .fromReward _ v => v
    | .fromOutput _ _ _ _ => 0).sum

/-- The sum of all block rewards minted, one reading per block: the value
claimed by the reward input of the block's final transaction (every mined
block's last transaction is its reward transaction; the genesis block has
none and contributes zero). -/
def Blockchain.mintedRewardSum (bc : Blockchain) : Credits :=
  ((bc.blocks.map Prod.snd).map fun b =>
    ((b.transactions.getLast?).map rewardInputTotal).getD 0).sum

/-- Resolve a referenced slot to the value of the toInput output it names,
if the chain holds one. -/
def Blockchain.resolveRef (bc : Blockchain) (r : Hash × Nat) :
    Option Credits :=
  match bc.find_transaction r.1 with
  | none => none
  | some t =>
      match t.data.outputs.get? r.2 with
      | some (.toInput v _) => some v
      | _ => none

/-- True on the fromOutput input variant. -/
def isFromOutputInput : TransactionInput → Bool
  | .fromOutput _ _ _ _ => true
  | .fromReward _ _ => false

/-- The ledger states reachable from a fresh blockchain by any sequence of
accepted transactions (each constructed by Transaction::try_new against
the ledger and admitted by Blockchain::new_transaction) and mined blocks:
the quantification domain of the conservation claim. -/
inductive Reach (sha3 : List Byte → Hash)
    (encodeTx : TransactionData → List Byte) (blockHash : Blk → Hash) :
    Blockchain → Prop
  | init (now : Int) (mph : Hash) :
      Reach sha3 encodeTx blockHash (Blockchain.new blockHash now mph)
  | accept {bc bc2 : Blockchain} (inputs : List TransactionInput)
      (outputs : List TransactionOutput) (lock_time : Nat) (t : Transaction)
      (hr : Reach sha3 encodeTx blockHash bc)
      (ht : Transaction.try_new sha3 encodeTx bc inputs outputs lock_time
              = .ok t)
      (hn : bc.new_transaction t = .ok bc2) :
      Reach sha3 encodeTx blockHash bc2
  | mineStep {bc bc2 : Blockchain} (now : Int)
      (hr : Reach sha3 encodeTx blockHash bc)
      (hm : Blockchain.mine sha3 encodeTx blockHash bc now = .ok bc2) :
      Reach sha3 encodeTx blockHash bc2

/-- The collision-free, double-spend-free restriction of Reach under which
the amended conservation law holds: accepted transactions spend only
fromOutput inputs, every reference across chain and pool names a distinct
slot (no output is referenced twice, hence no double spend), and
transaction and block hashes never collide.  Each mined block's hash is
fresh, so the block map grows by one entry per mined block. -/
inductive GoodReach (sha3 : List Byte → Hash)
    (encodeTx : TransactionData → List Byte) (blockHash : Blk → Hash) :
    Blockchain → Prop
  | init (now : Int) (mph : Hash) :
      GoodReach sha3 encodeTx blockHash (Blockchain.new blockHash now mph)
  | accept {bc bc2 : Blockchain} (inputs : List TransactionInput)
      (outputs : List TransactionOutput) (lock_time : Nat) (t : Transaction)
      (hr : GoodReach sha3 encodeTx blockHash bc)
      (ht : Transaction.try_new sha3 encodeTx bc inputs outputs lock_time
              = .ok t)
      (hn : bc.new_transaction t = .ok bc2)
      (hfo : inputs.all isFromOutputInput = true)
      (hh : (bc2.chainTxHashes ++ bc2.poolTxHashes).Nodup)
      (hrefs : (bc2.chainRefs ++ bc2.poolRefs).Nodup) :
      GoodReach sha3 encodeTx blockHash bc2
  | mineStep {bc bc2 : Blockchain} (now : Int)
      (hr : GoodReach sha3 encodeTx blockHash bc)
      (hm : Blockchain.mine sha3 encodeTx blockHash bc now = .ok bc2)
      (hfb : bc2.last_block_hash ∉ bc.blocks.map Prod.fst)
      (hh : (bc2.chainTxHashes ++ bc2.poolTxHashes).Nodup)
      (hrefs : (bc2.chainRefs ++ bc2.poolRefs).Nodup) :
      GoodReach sha3 encodeTx blockHash bc2

/-!
  Concrete stand-ins for the external primitives, used only to evaluate the
  embedded operations at closed inputs (counterexamples and witnesses).
  The toy digest prepends a zero byte, so every proof-of-work candidate
  validates and the search returns immediately; the toy transaction
  encoding is injective on the transactions the closed evaluations build,
  so their hashes are pairwise distinct, as real sha3-of-bincode hashes
  would be.
-/

/-- Toy digest: the input bytes behind a leading zero byte, padded to 32. -/
def sha3toy (l : List Byte) : Hash := padHash (0 :: l)

/-- Toy encoding of a transaction input. -/
def encodeInputToy : TransactionInput → List Byte
  | .fromOutput h i _ _ => 0 :: (h.val ++ natToLeBytes 4 i)
  | .fromReward h v => 1 :: (natToLeBytes 8 h ++ natToLeBytes 8 v.toNat)

/-- Toy encoding of a transaction output. -/
def encodeOutputToy : TransactionOutput → List Byte
  | .toInput v k => 0 :: (natToLeBytes 8 v.toNat ++ k.val)
  | .toPixel v _ _ => 2 :: natToLeBytes 8 v.toNat

/-- Toy encoding of transaction data. -/
def encodeTxToy (d : TransactionData) : List Byte :=
  natToLeBytes 4 d.inputs.length ++ d.inputs.flatMap encodeInputToy
    ++ natToLeBytes 4 d.outputs.length ++ d.outputs.flatMap encodeOutputToy

/-- Toy block hash: discriminated by transaction count, which differs
between the blocks the closed evaluations build. -/
def blockHashToy (b : Blk) : Hash :=
  padHash [1, ⟨b.transactions.length % 256, Nat.mod_lt _ (by norm_num)⟩]

/-- Extract the success value of an Except, with a fallback. -/
def exceptGetD {e a : Type} (x : Except e a) (d : a) : a :=
  match x with
  | .ok v => v
  | .error _ => d

/-- Miner address for the closed evaluations. -/
def mph0 : Hash := padHash [9]

/-- First recipient address for the closed evaluations. -/
def addrX : Hash := padHash [7]

/-- Second recipient address for the closed evaluations. -/
def addrY : Hash := padHash [8]

/-- A fresh blockchain under the toy primitives. -/
def bc0 : Blockchain := Blockchain.new blockHashToy 0 mph0

/-- The chain after mining one block on the fresh chain: its only unspent
output is the first reward transaction's 1000-credit output to the miner. -/
def bc1 : Blockchain :=
  exceptGetD (Blockchain.mine sha3toy encodeTxToy blockHashToy bc0 0) bc0

/-- The hash of the first block's reward transaction under the toy
primitives: the key under which its 1000-credit output is referenced. -/
def cexRef : Hash :=
  sha3toy (encodeTxToy
    ⟨CURRENT_TRANSACTION_VERSION, [.fromReward 1 1000], [.toInput 1000 mph0],
      BLOCK_LOCK_TIME⟩)

instance : Inhabited TransactionData :=
  ⟨⟨0, [], [], 0⟩⟩

instance : Inhabited Transaction :=
  ⟨⟨default, 0, zeroHash⟩⟩

/-- A transaction spending the single unspent output of bc1 to addrX. -/
def txA : Transaction :=
  exceptGetD
    (Transaction.try_new sha3toy encodeTxToy bc1
      [.fromOutput cexRef 0 zeroHash zeroSig] [.toInput 1000 addrX] 0)
    default

/-- A different transaction spending the same single unspent output of
bc1, to addrY. -/
def txB : Transaction :=
  exceptGetD
    (Transaction.try_new sha3toy encodeTxToy bc1
      [.fromOutput cexRef 0 zeroHash zeroSig] [.toInput 1000 addrY] 0)
    default

/-- bc1 after accepting txA. -/
def bc1A : Blockchain := exceptGetD (bc1.new_transaction txA) bc1

/-- bc1A after additionally accepting txB, which spends the same output
txA spends. -/
def bc1AB : Blockchain := exceptGetD (bc1A.new_transaction txB) bc1A

/-- A fee-paying transaction: spends the 1000-credit reward output of bc1
but pays out only 995, leaving a balance surplus of 5 that mining folds
into the next block reward. -/
def txF : Transaction :=
  exceptGetD
    (Transaction.try_new sha3toy encodeTxToy bc1
      [.fromOutput cexRef 0 zeroHash zeroSig] [.toInput 995 addrX] 0)
    default

/-- bc1 after accepting the fee-paying transaction. -/
def bc2F : Blockchain := exceptGetD (bc1.new_transaction txF) bc1

/-- The chain after mining the fee-paying transaction into a second block:
its unspent outputs are the 995-credit payment and the 1005-credit second
reward, totalling 2000, while the reward transactions minted 1000 + 1005 =
2005. -/
def bc3F : Blockchain :=
  exceptGetD (Blockchain.mine sha3toy encodeTxToy blockHashToy bc2F 0) bc2F

/-- An arbitrary garbage signature (all bytes one), distinct from zeroSig. -/
def sigOnes : Sig := ⟨List.replicate 64 1, by simp⟩

/-- A transaction whose fromOutput input carries the garbage signature
sigOnes: construction and admission never inspect it. -/
def txC : Transaction :=
  exceptGetD
    (Transaction.try_new sha3toy encodeTxToy bc1
      [.fromOutput cexRef 0 zeroHash sigOnes] [.toInput 1000 addrX] 0)
    default

/-- A hand-built transaction holding one toPixel output and one toInput
output, used to exercise every resolution branch of try_new. -/
def txPix : Transaction :=
  ⟨⟨0, [], [.toPixel 5 (0, 0) (0, 0, 0), .toInput 7 addrX], 0⟩, 0,
    padHash [4]⟩

/-- A hand-built one-block ledger containing txPix. -/
def bcPix : Blockchain :=
  { miner_public_key_hash := mph0
    blocks := [(padHash [3], ⟨0, [txPix], 0, none⟩)]
    transactions := []
    last_block_hash := padHash [3] }

/-- A transaction with no inputs and a single negative-value output:
balance 0 - (-5) = 5 is non-negative, so construction succeeds. -/
def t10 : Transaction :=
  exceptGetD
    (Transaction.try_new sha3toy encodeTxToy bc0 [] [.toInput (-5) addrX] 0)
    default

/-- The reward transaction Blockchain::mine hands to Transaction::try_new:
one fromReward input at the given height carrying the block reward, one
toInput output paying it to the miner, balance zero. -/
def mkRewardTx (sha3 : List Byte → Hash)
    (encodeTx : TransactionData → List Byte) (height : Nat) (r : Credits)
    (k : Hash) (lock_time : Nat) : Transaction :=
  ⟨⟨CURRENT_TRANSACTION_VERSION, [.fromReward height r], [.toInput r k],
      lock_time⟩, 0,
    sha3 (encodeTx
      ⟨CURRENT_TRANSACTION_VERSION, [.fromReward height r], [.toInput r k],
        lock_time⟩)⟩

/-- The block Blockchain::mine seals: the drained pool followed by the
reward transaction, the found proof, and the previous last block hash. -/
def mkMinedBlock (sha3 : List Byte → Hash)
    (encodeTx : TransactionData → List Byte) (bc : Blockchain) (now : Int)
    (height : Nat) (p : Proof) : Blk :=
  ⟨now,
    bc.transactions ++
      [mkRewardTx sha3 encodeTx (height + 1)
        (1000 + (bc.transactions.map Transaction.balance).sum)
        bc.miner_public_key_hash BLOCK_LOCK_TIME],
    p, some bc.last_block_hash⟩

/-- The conservation equation of the amended claim C3: the total unspent
toInput value equals the 1000-credit base subsidy per mined block (every
block except genesis) minus the value locked into toPixel outputs. -/
def ConsInv (bc : Blockchain) : Prop :=
  bc.unspentValueSum = 1000 * ((bc.blocks.length : Int) - 1) - bc.pixelTotal

/-- The pending pool is well-formed: every pooled transaction spends only
fromOutput inputs, each of its references resolves against the chain, and
its stored balance is the resolved input total minus its output total. -/
def PoolGood (bc : Blockchain) : Prop :=
  ∀ t ∈ bc.transactions,
    t.data.inputs.all isFromOutputInput = true ∧
    ∃ vals, (txRefs t).mapM bc.resolveRef = some vals ∧
      t.balance = vals.sum - outputTotal t.data.outputs

/-- Every chain reference names a chain transaction's hash. -/
def RefsClosed (bc : Blockchain) : Prop :=
  ∀ r ∈ bc.chainRefs, r.1 ∈ bc.chainTxHashes

/-- The inductive strengthening carried through the conservation proof. -/
def LedgerInv (bc : Blockchain) : Prop :=
  ConsInv bc ∧ PoolGood bc ∧ RefsClosed bc ∧
    (bc.chainTxHashes ++ bc.poolTxHashes).Nodup ∧
    (bc.chainRefs ++ bc.poolRefs).Nodup

/-- The concrete derived address used to evaluate the round-trip claim:
version byte, hash of the empty public-key serialization, checksum. -/
def addrW : Address (List Byte) :=
  ⟨ADDRESS_CURRENT_VERSION :: (sha3toy []).val ++
    calculate_checksum sha3toy ADDRESS_CURRENT_VERSION (sha3toy [])⟩

/-!
  ## Helper lemmas

  Record-update projections and unfolding lemmas shared by the claim
  theorems below.
-/

@[simp]
theorem blocks_set_transactions (bc : Blockchain) (l : List Transaction) :
    ({ bc with transactions := l } : Blockchain).blocks = bc.blocks := rfl

@[simp]
theorem lookupBlock_set_transactions (bc : Blockchain) (l : List Transaction)
    (h : Hash) :
    ({ bc with transactions := l } : Blockchain).lookupBlock h =
      bc.lookupBlock h := rfl

@[simp]
theorem chainTxs_set_transactions (bc : Blockchain) (l : List Transaction) :
    ({ bc with transactions := l } : Blockchain).chainTxs = bc.chainTxs := rfl

/-!
  ## Claim C10
-/

/-- Claim C10: transaction construction enforces no lower bound on
individual output values, only on their sum.  With no inputs and a single
toInput output of value -5, the balance is 0 - (-5) = 5, which is
non-negative, so Transaction::try_new succeeds and the constructed
transaction carries a negative-value output. -/
theorem claim_C10_negative_output_allowed :
    Transaction.try_new sha3toy encodeTxToy bc0 []
        [.toInput (-5) addrX] 0 = .ok t10 ∧
      t10.data.outputs = [.toInput (-5) addrX] ∧
      t10.balance = 5 ∧
      TransactionOutput.toInput (-5) addrX ∈ t10.data.outputs ∧
      (-5 : Credits) < 0 := by
  refine ⟨by decide, by decide, by decide, by decide, by decide⟩

/-!
  ## Claim C1
-/

/-- Claim C1 (the code admits the double spend): bc1 holds exactly one
unspent output (the first reward output, at slot (cexRef, 0)); txA and txB
are two different transactions, each spending that single output;
Blockchain::new_transaction admits both of them in sequence, the second
acceptance succeeding rather than failing with a DoubleSpend error, and
afterwards both sit in the pending pool.  The final conjunct shows why: the
acceptance path pushes unconditionally and returns Ok for every
transaction whatsoever — it consults neither the committed chain nor the
pending pool, and no DoubleSpend outcome exists in the code. -/
theorem claim_C1_double_spend_admitted :
    (bc1.get_all_unspent_outputs.map fun x => (x.1.hash, x.2.2))
        = [(cexRef, 0)] ∧
      Transaction.try_new sha3toy encodeTxToy bc1
          [.fromOutput cexRef 0 zeroHash zeroSig] [.toInput 1000 addrX] 0
        = .ok txA ∧
      Transaction.try_new sha3toy encodeTxToy bc1
          [.fromOutput cexRef 0 zeroHash zeroSig] [.toInput 1000 addrY] 0
        = .ok txB ∧
      txA ≠ txB ∧
      txRefs txA = [(cexRef, 0)] ∧
      txRefs txB = [(cexRef, 0)] ∧
      bc1.new_transaction txA = .ok bc1A ∧
      bc1A.new_transaction txB = .ok bc1AB ∧
      bc1AB.transactions = [txA, txB] ∧
      ∀ (bc : Blockchain) (t : Transaction),
        bc.new_transaction t = .ok { bc with
          transactions := bc.transactions ++ [t] } := by
  refine ⟨by decide, by decide, by decide, by decide, by decide, by decide,
    by decide, by decide, by decide, fun bc t => rfl⟩

/-!
  ## Claim C5
-/

/-- Claim C5 (no signature verification exists): txC carries an arbitrary
garbage signature (all bytes one) on its fromOutput input; construction
succeeds and acceptance admits it into the pending pool.  The crate
contains no verify operation at all, and the last conjunct makes the
independence explicit: for every ledger and every pair of public keys and
signatures, construction of a single-input spend succeeds for one exactly
when it succeeds for the other — nothing in the admission path reads
either field. -/
theorem claim_C5_no_signature_verification :
    Transaction.try_new sha3toy encodeTxToy bc1
        [.fromOutput cexRef 0 zeroHash sigOnes] [.toInput 1000 addrX] 0
      = .ok txC ∧
      txC.data.inputs = [.fromOutput cexRef 0 zeroHash sigOnes] ∧
      bc1.new_transaction txC
        = .ok { bc1 with transactions := bc1.transactions ++ [txC] } ∧
      ∀ (sha3 : List Byte → Hash) (encodeTx : TransactionData → List Byte)
        (bc : Blockchain) (h : Hash) (i : Nat) (pk pk2 : PublicKey)
        (s s2 : Sig) (outs : List TransactionOutput) (lt : Nat),
        (Transaction.try_new sha3 encodeTx bc [.fromOutput h i pk s] outs
            lt).isOk =
          (Transaction.try_new sha3 encodeTx bc [.fromOutput h i pk2 s2] outs
            lt).isOk := by
  refine ⟨by decide, by decide, by decide, ?_⟩
  intro sha3 encodeTx bc h i pk pk2 s s2 outs lt
  have hres : resolveInput bc (.fromOutput h i pk s)
      = resolveInput bc (.fromOutput h i pk2 s2) := rfl
  simp only [Transaction.try_new, List.mapM, List.mapM.loop, hres]
  cases resolveInput bc (.fromOutput h i pk2 s2) with
  | error e => simp [Except.isOk, Except.toBool, bind, Except.bind]
  | ok v =>
      simp only [bind, Except.bind, pure, Except.pure]
      split <;> simp [Except.isOk, Except.toBool]

/-!
  ## Claim C2
-/

/-- Claim C2: Transaction::try_new succeeds only if the resolved input
total minus the output total (toInput and toPixel alike, via outputTotal)
is non-negative, and then stores that difference as the balance; when the
difference is negative it fails with insufficientInputValue; and when
input resolution itself fails the construction fails with that resolution
error.  In every failure case no Transaction value exists, so nothing can
be handed to Blockchain::new_transaction, which is the only way into the
pending pool. -/
theorem claim_C2_balance_nonneg (sha3 : List Byte → Hash)
    (encodeTx : TransactionData → List Byte) (bc : Blockchain)
    (inputs : List TransactionInput) (outputs : List TransactionOutput)
    (lock_time : Nat) :
    (∀ t vals, inputs.mapM (resolveInput bc) = .ok vals →
        Transaction.try_new sha3 encodeTx bc inputs outputs lock_time
            = .ok t →
        0 ≤ vals.sum - outputTotal outputs ∧
          t.balance = vals.sum - outputTotal outputs ∧
          t.data = ⟨CURRENT_TRANSACTION_VERSION, inputs, outputs,
            lock_time⟩) ∧
      (∀ vals, inputs.mapM (resolveInput bc) = .ok vals →
        vals.sum - outputTotal outputs < 0 →
        Transaction.try_new sha3 encodeTx bc inputs outputs lock_time
          = .error .insufficientInputValue) ∧
      ∀ e, inputs.mapM (resolveInput bc) = .error e →
        Transaction.try_new sha3 encodeTx bc inputs outputs lock_time
          = .error e := by
  refine ⟨?_, ?_, ?_⟩
  · intro t vals hm ht
    simp only [Transaction.try_new, hm, bind, Except.bind] at ht
    by_cases hb : vals.sum - outputTotal outputs < 0
    · rw [if_pos hb] at ht
      cases ht
    · rw [if_neg hb] at ht
      cases ht
      exact ⟨le_of_not_lt (by simpa using hb), by simp, rfl⟩
  · intro vals hm hb
    simp only [Transaction.try_new, hm, bind, Except.bind]
    rw [if_pos (by simpa using hb)]
  · intro e hm
    simp only [Transaction.try_new, hm, bind, Except.bind]

/-- Witness for claim C2: the two directions evaluated at concrete inputs
on the fresh toy chain — the negative-value-output transaction t10 whose
balance 5 is non-negative, and the no-input five-credit spend that fails
with insufficientInputValue. -/
theorem claim_C2_witness :
    (0 ≤ ([] : List Credits).sum - outputTotal [.toInput (-5) addrX] ∧
        t10.balance = ([] : List Credits).sum
            - outputTotal [.toInput (-5) addrX] ∧
        t10.data = ⟨CURRENT_TRANSACTION_VERSION, [], [.toInput (-5) addrX],
          0⟩) ∧
      Transaction.try_new sha3toy encodeTxToy bc0 [] [.toInput 5 addrX] 0
        = .error .insufficientInputValue :=
  ⟨(claim_C2_balance_nonneg sha3toy encodeTxToy bc0 []
        [.toInput (-5) addrX] 0).1 t10 [] (by decide) (by decide),
    (claim_C2_balance_nonneg sha3toy encodeTxToy bc0 []
        [.toInput 5 addrX] 0).2.1 [] (by decide) (by decide)⟩

/-!
  ## Claim C9
-/

/-- Claim C9: per-input resolution in Transaction::try_new.  A fromOutput
input fails with unknownInput when no chain transaction carries the
referenced hash, with outputIndexOutOfRange when the referenced
transaction has no output at the index, with outputTypeMismatch when the
output there is a toPixel, and otherwise yields the referenced toInput
value (which claim C2 shows is summed into the input total); a fromReward
input yields its declared value directly, with no ledger lookup of any
kind. -/
theorem claim_C9_input_resolution (bc : Blockchain) (h : Hash) (i : Nat)
    (pk : PublicKey) (s : Sig) (rh : Nat) (rv : Credits) :
    (bc.find_transaction h = none →
        resolveInput bc (.fromOutput h i pk s) = .error .unknownInput) ∧
      (∀ t, bc.find_transaction h = some t →
        t.data.outputs[i]? = none →
        resolveInput bc (.fromOutput h i pk s)
          = .error .outputIndexOutOfRange) ∧
      (∀ t v pos col, bc.find_transaction h = some t →
        t.data.outputs[i]? = some (.toPixel v pos col) →
        resolveInput bc (.fromOutput h i pk s)
          = .error .outputTypeMismatch) ∧
      (∀ t v k, bc.find_transaction h = some t →
        t.data.outputs[i]? = some (.toInput v k) →
        resolveInput bc (.fromOutput h i pk s) = .ok v) ∧
      resolveInput bc (.fromReward rh rv) = .ok rv := by
  refine ⟨?_, ?_, ?_, ?_, rfl⟩ <;> intros <;>
    simp [resolveInput, List.get?_eq_getElem?, *]

/-- Witness for claim C9: every resolution branch evaluated on the
hand-built ledger bcPix, whose single transaction txPix (hash padHash [4])
has a toPixel output at index 0 and a toInput output of value 7 at
index 1. -/
theorem claim_C9_witness :
    resolveInput bcPix (.fromOutput (padHash [5]) 0 zeroHash zeroSig)
        = .error .unknownInput ∧
      resolveInput bcPix (.fromOutput (padHash [4]) 5 zeroHash zeroSig)
        = .error .outputIndexOutOfRange ∧
      resolveInput bcPix (.fromOutput (padHash [4]) 0 zeroHash zeroSig)
        = .error .outputTypeMismatch ∧
      resolveInput bcPix (.fromOutput (padHash [4]) 1 zeroHash zeroSig)
        = .ok 7 ∧
      resolveInput bcPix (.fromReward 3 11) = .ok 11 :=
  ⟨(claim_C9_input_resolution bcPix (padHash [5]) 0 zeroHash zeroSig 3
        11).1 (by decide),
    (claim_C9_input_resolution bcPix (padHash [4]) 5 zeroHash zeroSig 3
        11).2.1 txPix (by decide) (by decide),
    (claim_C9_input_resolution bcPix (padHash [4]) 0 zeroHash zeroSig 3
        11).2.2.1 txPix 5 (0, 0) (0, 0, 0) (by decide) (by decide),
    (claim_C9_input_resolution bcPix (padHash [4]) 1 zeroHash zeroSig 3
        11).2.2.2.1 txPix 7 addrX (by decide) (by decide),
    (claim_C9_input_resolution bcPix (padHash [4]) 1 zeroHash zeroSig 3
        11).2.2.2.2⟩

/-!
  ## Claim C8
-/

/-- Claim C8: Address::validate is a total Boolean function (every
fallible step in the embedding is explicit, mirroring the Rust code's
early false returns and its one defaulting conversion) and it returns
false exactly when the base58 decode fails, or the decoded length differs
from 1 + 32 + 4 = 37 bytes, or the version byte differs from the protocol
version, or the recomputed double-sha3 checksum differs from the stored
four checksum bytes; otherwise it returns true. -/
theorem claim_C8_validate_characterization {B58 : Type}
    (sha3 : List Byte → Hash) (bs58decode : B58 → Option (List Byte))
    (a : Address B58) :
    Address.validate sha3 bs58decode a = false ↔
      bs58decode a.base58 = none ∨
        ∃ v, bs58decode a.base58 = some v ∧
          (v.length ≠ 1 + 32 + 4 ∨ v.headI ≠ ADDRESS_CURRENT_VERSION ∨
            (calculate_checksum sha3 v.headI
                (listToHash ((v.drop 1).take 32))).take 4 ≠ v.drop 33) := by
  cases hd : bs58decode a.base58 with
  | none => simp [Address.validate, hd]
  | some v =>
      simp only [Address.validate, hd]
      split_ifs with h1 h2 h3 <;> simp_all

/-!
  ## Claim C7
-/

/-- Claim C7: the address round-trip.  For every private key accepted as a
curve scalar (publicKeyBytes, the external k256 derivation composed with
the bincode serialization, returns some bytes; the Rust code panics on the
others), and for any base58 codec that decodes what it encodes, the
address derived by Address::from_private_key passes Address::validate.
The computed layout is one version byte, the 32-byte public-key hash and
the 4-byte double-sha3 checksum, and validate recomputes exactly the
stored checksum. -/
theorem claim_C7_address_roundtrip {B58 : Type} (sha3 : List Byte → Hash)
    (publicKeyBytes : PrivateKey → Option (List Byte))
    (bs58encode : List Byte → B58) (bs58decode : B58 → Option (List Byte))
    (k : PrivateKey) (pkb : List Byte)
    (hk : publicKeyBytes k = some pkb)
    (hrt : ∀ v : List Byte, bs58decode (bs58encode v) = some v) :
    (Address.from_private_key sha3 publicKeyBytes bs58encode k).isSome
        = true ∧
      ∀ a, Address.from_private_key sha3 publicKeyBytes bs58encode k
          = some a →
        Address.validate sha3 bs58decode a = true := by
  constructor
  · simp [Address.from_private_key, hk]
  · intro a ha
    simp only [Address.from_private_key, hk, Option.map_some] at ha
    cases ha
    set pkh := sha3 pkb with hpkh
    have hlenpkh : pkh.val.length = 32 := pkh.property
    have hlenck :
        (calculate_checksum sha3 ADDRESS_CURRENT_VERSION pkh).length = 4 := by
      have := (sha3 (sha3 (ADDRESS_CURRENT_VERSION :: pkh.val)).val).property
      simp [calculate_checksum, List.length_take, this]
    simp only [Address.validate, hrt]
    have hlen : (ADDRESS_CURRENT_VERSION :: pkh.val ++
        calculate_checksum sha3 ADDRESS_CURRENT_VERSION pkh).length
        = 1 + 32 + 4 := by
      simp [hlenpkh, hlenck]
    rw [if_pos hlen]
    have hheadI : (ADDRESS_CURRENT_VERSION :: pkh.val ++
        calculate_checksum sha3 ADDRESS_CURRENT_VERSION pkh).headI
        = ADDRESS_CURRENT_VERSION := rfl
    rw [hheadI, if_pos rfl]
    have hdrop1 : (ADDRESS_CURRENT_VERSION :: pkh.val ++
        calculate_checksum sha3 ADDRESS_CURRENT_VERSION pkh).drop 1
        = pkh.val ++ calculate_checksum sha3 ADDRESS_CURRENT_VERSION pkh :=
      rfl
    have htake : ((ADDRESS_CURRENT_VERSION :: pkh.val ++
        calculate_checksum sha3 ADDRESS_CURRENT_VERSION pkh).drop 1).take 32
        = pkh.val := by
      rw [hdrop1, List.take_left' hlenpkh]
    have hdrop33 : (ADDRESS_CURRENT_VERSION :: pkh.val ++
        calculate_checksum sha3 ADDRESS_CURRENT_VERSION pkh).drop 33
        = calculate_checksum sha3 ADDRESS_CURRENT_VERSION pkh := by
      have h33 : (33 : Nat) = 1 + 32 := by omega
      rw [h33, ← List.drop_drop, hdrop1, List.drop_left' hlenpkh]
    have hlth : listToHash pkh.val = pkh := by
      unfold listToHash
      rw [dif_pos hlenpkh]
      exact Subtype.ext rfl
    rw [htake, hdrop33, hlth]
    have htk : (calculate_checksum sha3 ADDRESS_CURRENT_VERSION pkh).take 4
        = calculate_checksum sha3 ADDRESS_CURRENT_VERSION pkh := by
      rw [List.take_of_length_le (le_of_eq hlenck)]
    rw [if_pos htk]

/-- Witness for claim C7: the round-trip evaluated with the toy digest,
the identity base58 codec over raw byte lists, a public-key derivation
that accepts the all-zero scalar, and the concrete derived address addrW. -/
theorem claim_C7_witness :
    (Address.from_private_key sha3toy (fun _ => some [])
          (fun v : List Byte => v) zeroHash).isSome = true ∧
      Address.validate sha3toy some addrW = true :=
  ⟨(claim_C7_address_roundtrip sha3toy (fun _ => some [])
        (fun v : List Byte => v) some zeroHash [] rfl
        (fun _ => rfl)).1,
    (claim_C7_address_roundtrip sha3toy (fun _ => some [])
        (fun v : List Byte => v) some zeroHash [] rfl
        (fun _ => rfl)).2 addrW rfl⟩

/-!
  ## Claim C6
-/

/-- Any candidate the brute-force scan returns validates against the seed
proof. -/
theorem searchFrom_valid (sha3 : List Byte → Hash) (lp : Proof) :
    ∀ (fuel : Nat) (st c : Proof),
      searchFrom sha3 lp st fuel = some c →
      validate_proof sha3 lp c = true := by
  intro fuel
  induction fuel with
  | zero => intro st c h; simp [searchFrom] at h
  | succ n ih =>
      intro st c h
      cases hv : validate_proof sha3 lp st with
      | true =>
          simp [searchFrom, hv] at h
          subst h
          exact hv
      | false =>
          simp [searchFrom, hv] at h
          exact ih (st + 1) c h

/-- Claim C6: validate_proof hashes the concatenation of the little-endian
bytes of the two proofs and accepts exactly when the digest's leading byte
is zero; re-running it on the same arguments gives the same result (the
embedding is a pure function, so determinism is definitional); and any
proof the proof-of-work search returns for the chain's last block
validates against that block's proof. -/
theorem claim_C6_proof_validity (sha3 : List Byte → Hash)
    (last p c : Proof) (bc : Blockchain) (lb : Blk) :
    (validate_proof sha3 last p = true ↔
        (sha3 (natToLeBytes 16 last ++ natToLeBytes 16 p)).val.head?
          = some 0) ∧
      validate_proof sha3 last p = validate_proof sha3 last p ∧
      (bc.lookupBlock bc.last_block_hash = some lb →
        bc.proof_of_work sha3 = some c →
        validate_proof sha3 lb.proof c = true) := by
  refine ⟨?_, rfl, ?_⟩
  · have hlen :
        (sha3 (natToLeBytes 16 last ++ natToLeBytes 16 p)).val.length = 32 :=
      (sha3 (natToLeBytes 16 last ++ natToLeBytes 16 p)).property
    unfold validate_proof
    cases hd : (sha3 (natToLeBytes 16 last ++ natToLeBytes 16 p)).val with
    | nil => rw [hd] at hlen; cases hlen
    | cons b tl => simp [hd]
  · intro hlb hpow
    unfold Blockchain.proof_of_work at hpow
    rw [hlb] at hpow
    exact searchFrom_valid sha3 lb.proof _ 0 c hpow

/-- Witness for claim C6: the leading-byte characterization and the
validity of the proof found on the fresh toy chain (the genesis block has
proof 100, and candidate 0 is returned and validates). -/
theorem claim_C6_witness :
    (validate_proof sha3toy 100 0 = true ↔
        (sha3toy (natToLeBytes 16 100 ++ natToLeBytes 16 0)).val.head?
          = some 0) ∧
      validate_proof sha3toy (100 : Proof) (0 : Proof) = true :=
  ⟨(claim_C6_proof_validity sha3toy 100 0 0 bc0 ⟨0, [], 100, none⟩).1,
    (claim_C6_proof_validity sha3toy 100 0 0 bc0 ⟨0, [], 100, none⟩).2.2
      (by decide) (by decide)⟩

/-!
  ## Claim C4
-/

/-- Always-successful construction of the reward transaction: a fromReward
input never consults the ledger and the balance is exactly zero. -/
theorem try_new_reward (sha3 : List Byte → Hash)
    (encodeTx : TransactionData → List Byte) (bc : Blockchain) (n : Nat)
    (r : Credits) (k : Hash) (lt : Nat) :
    Transaction.try_new sha3 encodeTx bc [.fromReward n r] [.toInput r k] lt
      = .ok (mkRewardTx sha3 encodeTx n r k lt) := by
  have hm : List.mapM (resolveInput bc) [TransactionInput.fromReward n r]
      = Except.ok [r] := rfl
  have hout : outputTotal [TransactionOutput.toInput r k] = r := by
    simp [outputTotal, outputValue]
  simp only [Transaction.try_new, hm, bind, Except.bind, hout,
    List.sum_cons, List.sum_nil, add_zero]
  rw [if_neg (by simp)]
  simp [mkRewardTx]

/-- Claim C4: the structure of Blockchain::mine.  Under the non-panic side
conditions (the last block hash resolves, its height derives, and the
proof search succeeds — mine's own unwraps otherwise abort), mine drains
the entire pending pool (the new pool is empty and every drained
transaction sits in the new block), computes the block reward as the
1000-credit base plus the sum of the drained transactions' balances,
appends as the block's final transaction a reward transaction carrying one
fromReward input at the previous height plus one and one toInput output
paying the reward to the miner, seals the block with previous_hash equal
to the old last block hash, inserts it keyed by its own hash and advances
last_block_hash to that hash.  No hypothesis constrains the pool, so an
empty pool still yields a block holding only the reward transaction. -/
theorem claim_C4_mine_structure (sha3 : List Byte → Hash)
    (encodeTx : TransactionData → List Byte) (blockHash : Blk → Hash)
    (bc : Blockchain) (now : Int) (lb : Blk) (height : Nat) (p : Proof)
    (hlb : bc.lookupBlock bc.last_block_hash = some lb)
    (hh : lb.get_block_height = .ok height)
    (hp : Blockchain.proof_of_work sha3 { bc with transactions := [] }
        = some p) :
    Transaction.try_new sha3 encodeTx { bc with transactions := [] }
        [.fromReward (height + 1)
          (1000 + (bc.transactions.map Transaction.balance).sum)]
        [.toInput (1000 + (bc.transactions.map Transaction.balance).sum)
          bc.miner_public_key_hash] BLOCK_LOCK_TIME
      = .ok (mkRewardTx sha3 encodeTx (height + 1)
          (1000 + (bc.transactions.map Transaction.balance).sum)
          bc.miner_public_key_hash BLOCK_LOCK_TIME) ∧
      (mkMinedBlock sha3 encodeTx bc now height p).transactions
        = bc.transactions ++
            [mkRewardTx sha3 encodeTx (height + 1)
              (1000 + (bc.transactions.map Transaction.balance).sum)
              bc.miner_public_key_hash BLOCK_LOCK_TIME] ∧
      (mkMinedBlock sha3 encodeTx bc now height p).previous_hash
        = some bc.last_block_hash ∧
      Blockchain.mine sha3 encodeTx blockHash bc now
        = .ok { miner_public_key_hash := bc.miner_public_key_hash
                blocks := insertAssoc
                  (blockHash (mkMinedBlock sha3 encodeTx bc now height p))
                  (mkMinedBlock sha3 encodeTx bc now height p) bc.blocks
                transactions := []
                last_block_hash :=
                  blockHash (mkMinedBlock sha3 encodeTx bc now height p) } := by
  refine ⟨try_new_reward sha3 encodeTx _ _ _ _ _, rfl, rfl, ?_⟩
  simp only [Blockchain.mine, lookupBlock_set_transactions, hlb, hh,
    try_new_reward, hp, mkMinedBlock]

/-- Witness for claim C4: mine evaluated on the fresh toy chain — genesis
resolves, its height is zero, the proof search returns candidate zero, and
the sealed block holds exactly the reward transaction. -/
theorem claim_C4_witness :
    Transaction.try_new sha3toy encodeTxToy { bc0 with transactions := [] }
        [.fromReward (0 + 1)
          (1000 + (bc0.transactions.map Transaction.balance).sum)]
        [.toInput (1000 + (bc0.transactions.map Transaction.balance).sum)
          bc0.miner_public_key_hash] BLOCK_LOCK_TIME
      = .ok (mkRewardTx sha3toy encodeTxToy (0 + 1)
          (1000 + (bc0.transactions.map Transaction.balance).sum)
          bc0.miner_public_key_hash BLOCK_LOCK_TIME) ∧
      (mkMinedBlock sha3toy encodeTxToy bc0 0 0 0).transactions
        = bc0.transactions ++
            [mkRewardTx sha3toy encodeTxToy (0 + 1)
              (1000 + (bc0.transactions.map Transaction.balance).sum)
              bc0.miner_public_key_hash BLOCK_LOCK_TIME] ∧
      (mkMinedBlock sha3toy encodeTxToy bc0 0 0 0).previous_hash
        = some bc0.last_block_hash ∧
      Blockchain.mine sha3toy encodeTxToy blockHashToy bc0 0
        = .ok { miner_public_key_hash := bc0.miner_public_key_hash
                blocks := insertAssoc
                  (blockHashToy (mkMinedBlock sha3toy encodeTxToy bc0 0 0 0))
                  (mkMinedBlock sha3toy encodeTxToy bc0 0 0 0) bc0.blocks
                transactions := []
                last_block_hash :=
                  blockHashToy
                    (mkMinedBlock sha3toy encodeTxToy bc0 0 0 0) } :=
  claim_C4_mine_structure sha3toy encodeTxToy blockHashToy bc0 0
    ⟨0, [], 100, none⟩ 0 0 (by decide) (by decide) (by decide)

/-!
  ## Claim C3: counterexample
-/

/-- Counterexample to claim C3 as stated.  The state bc3F is reachable
from a fresh blockchain by accepted transactions and mined blocks alone:
mine once, accept the fee-paying spend txF (balance surplus 5), mine
again.  Its two reward transactions minted 1000 and 1000 + 5 = 1005 block
rewards, no value sits in toPixel outputs, yet the total unspent toInput
value is 2000, not 2005: the surplus of a drained transaction is not new
unspent value, it is recycled into the next reward, so total unspent value
does not equal the sum of minted block rewards minus the pixel total. -/
theorem claim_C3_counterexample :
    Reach sha3toy encodeTxToy blockHashToy bc3F ∧
      bc3F.pixelTotal = 0 ∧
      bc3F.mintedRewardSum = 2005 ∧
      bc3F.unspentValueSum = 2000 ∧
      ¬(bc3F.unspentValueSum = bc3F.mintedRewardSum - bc3F.pixelTotal) := by
  refine ⟨?_, by decide, by decide, by decide, by decide⟩
  have h1 : Blockchain.mine sha3toy encodeTxToy blockHashToy bc0 0
      = .ok bc1 := by decide
  have h2 : Transaction.try_new sha3toy encodeTxToy bc1
      [.fromOutput cexRef 0 zeroHash zeroSig] [.toInput 995 addrX] 0
      = .ok txF := by decide
  have h3 : bc1.new_transaction txF = .ok bc2F := by decide
  have h4 : Blockchain.mine sha3toy encodeTxToy blockHashToy bc2F 0
      = .ok bc3F := by decide
  exact Reach.mineStep 0
    (Reach.accept _ _ _ txF (Reach.mineStep 0 (Reach.init 0 mph0) h1) h2 h3)
    h4

/-!
  ## Claim C3: the amended conservation law

  Generic summation lemmas, the bridge between the source-level unspent
  scan and a slot-based accounting view, and the inductive invariant
  argument.
-/

theorem sum_filterMap {α β : Type} (L : List α) (f : α → Option β)
    (g : β → Int) :
    ((L.filterMap f).map g).sum
      = (L.map fun a => ((f a).map g).getD 0).sum := by
  induction L with
  | nil => simp
  | cons a L ih =>
      cases hf : f a <;> simp [List.filterMap_cons, hf, ih]

theorem sum_map_flatMap {α β : Type} (l : List α) (f : α → List β)
    (g : β → Int) :
    ((l.flatMap f).map g).sum = (l.map fun a => ((f a).map g).sum).sum := by
  induction l with
  | nil => simp
  | cons a l ih => simp [ih]

theorem sum_map_add {α : Type} (l : List α) (f g : α → Int) :
    (l.map fun a => f a + g a).sum = (l.map f).sum + (l.map g).sum := by
  induction l with
  | nil => simp
  | cons a l ih =>
      simp only [List.map_cons, List.sum_cons, ih]
      ring

theorem sum_if_key_not_mem {slots : List ((Hash × Nat) × Credits)}
    {r : Hash × Nat} (h : r ∉ slots.map Prod.fst) :
    (slots.map fun s => if s.1 = r then s.2 else 0).sum = 0 := by
  induction slots with
  | nil => simp
  | cons s slots ih =>
      simp only [List.map_cons, List.mem_cons, not_or] at h
      have hne : s.1 ≠ r := fun hc => h.1 hc.symm
      simp only [List.map_cons, List.sum_cons, if_neg hne, ih h.2, add_zero]

theorem sum_if_key_single {slots : List ((Hash × Nat) × Credits)}
    {r : Hash × Nat} {v : Credits} (hnd : (slots.map Prod.fst).Nodup)
    (hmem : (r, v) ∈ slots) :
    (slots.map fun s => if s.1 = r then s.2 else 0).sum = v := by
  induction slots with
  | nil => cases hmem
  | cons s slots ih =>
      simp only [List.map_cons, List.nodup_cons] at hnd
      rcases List.mem_cons.mp hmem with hs | hs
      · subst hs
        simp only [List.map_cons, List.sum_cons]
        rw [if_pos trivial, sum_if_key_not_mem hnd.1]
        ring
      · have hne : s.1 ≠ r := by
          intro hc
          exact hnd.1 (hc ▸ (List.mem_map.mpr ⟨(r, v), hs, rfl⟩))
        simp [if_neg hne, ih hnd.2 hs]

theorem sum_if_mem_eq (slots : List ((Hash × Nat) × Credits))
    (R : List (Hash × Nat)) (w : Hash × Nat → Credits)
    (hkeys : (slots.map Prod.fst).Nodup) (hR : R.Nodup)
    (hmem : ∀ r ∈ R, (r, w r) ∈ slots) :
    (slots.map fun s => if s.1 ∈ R then s.2 else 0).sum = (R.map w).sum := by
  induction R with
  | nil => simp
  | cons r R ih =>
      have hrR : r ∉ R := (List.nodup_cons.mp hR).1
      have hsplit : ∀ s : (Hash × Nat) × Credits,
          (if s.1 ∈ r :: R then s.2 else 0)
            = (if s.1 = r then s.2 else 0) + (if s.1 ∈ R then s.2 else 0) := by
        intro s
        by_cases h1 : s.1 = r
        · subst h1
          simp [if_neg hrR]
        · by_cases h2 : s.1 ∈ R <;> simp [List.mem_cons, h1, h2]
      rw [List.map_congr_left fun s _ => hsplit s, sum_map_add,
        sum_if_key_single hkeys (hmem r (List.mem_cons_self r R)),
        ih (List.nodup_cons.mp hR).2
          (fun x hx => hmem x (List.mem_cons_of_mem r hx)),
        List.map_cons, List.sum_cons]

/-- Bridge: is_output_spent holds exactly on the slots some chain input
references. -/
theorem is_output_spent_iff (bc : Blockchain) (h : Hash) (i : Nat) :
    bc.is_output_spent h i = true ↔ (h, i) ∈ bc.chainRefs := by
  unfold Blockchain.is_output_spent Blockchain.chainRefs txRefs
  rw [List.any_eq_true]
  constructor
  · rintro ⟨input, hmem, hok⟩
    obtain ⟨t, ht, hin⟩ := List.mem_flatMap.mp hmem
    refine List.mem_flatMap.mpr ⟨t, ht, ?_⟩
    cases input with
    | fromOutput h2 i2 pk s =>
        simp only [decide_eq_true_eq] at hok
        obtain ⟨rfl, rfl⟩ := hok
        exact List.mem_filterMap.mpr ⟨.fromOutput h2 i2 pk s, hin, rfl⟩
    | fromReward a b => cases hok
  · intro hmem
    obtain ⟨t, ht, hin⟩ := List.mem_flatMap.mp hmem
    obtain ⟨input, hini, href⟩ := List.mem_filterMap.mp hin
    cases input with
    | fromOutput h2 i2 pk s =>
        refine ⟨.fromOutput h2 i2 pk s,
          List.mem_flatMap.mpr ⟨t, ht, hini⟩, ?_⟩
        have hinj := Option.some.inj href
        have h1 : h2 = h := congrArg Prod.fst hinj
        have h2i : i2 = i := congrArg Prod.snd hinj
        subst h1
        subst h2i
        simp
    | fromReward a b => simp at href

/-- Bridge: the source-level unspent-output sum equals the slot-based
accounting sum — every spendable slot contributes its value unless some
chain input references it. -/
theorem unspentValueSum_eq (bc : Blockchain) :
    bc.unspentValueSum
      = (bc.chainSlots.map fun s =>
          if s.1 ∈ bc.chainRefs then 0 else s.2).sum := by
  unfold Blockchain.unspentValueSum Blockchain.get_all_unspent_outputs
    Blockchain.chainSlots
  rw [sum_map_flatMap, sum_map_flatMap]
  refine congrArg List.sum (List.map_congr_left ?_)
  intro t ht
  unfold txSlots
  rw [sum_filterMap, sum_filterMap]
  refine congrArg List.sum (List.map_congr_left ?_)
  intro p hp
  cases hout : p.2 with
  | toPixel v pos col => simp [slotOf, hout]
  | toInput v k =>
      by_cases hs : bc.is_output_spent t.hash p.1 = true
      · have hmem := (is_output_spent_iff bc t.hash p.1).mp hs
        simp [slotOf, hout, hs, hmem]
      · have hmem : (t.hash, p.1) ∉ bc.chainRefs :=
          fun hm => hs ((is_output_spent_iff bc t.hash p.1).mpr hm)
        simp [slotOf, hout, hs, hmem, outputValue]

/-- A slot drawn from an enumerated output list carries the given hash and
an index at least the enumeration start. -/
theorem slotOf_mem_facts (h : Hash) (L : List TransactionOutput) :
    ∀ (n : Nat) (s : (Hash × Nat) × Credits),
      s ∈ (L.enumFrom n).filterMap (slotOf h) →
      s.1.1 = h ∧ n ≤ s.1.2 := by
  induction L with
  | nil => intro n s hs; simp at hs
  | cons out L ih =>
      intro n s hs
      rw [List.enumFrom_cons, List.filterMap_cons] at hs
      cases hout : out with
      | toInput v k =>
          rw [hout] at hs
          simp only [slotOf] at hs
          rcases List.mem_cons.mp hs with hs | hs
          · subst hs
            exact ⟨rfl, le_refl n⟩
          · obtain ⟨h1, h2⟩ := ih (n + 1) s hs
            exact ⟨h1, by omega⟩
      | toPixel v pos col =>
          rw [hout] at hs
          simp only [slotOf] at hs
          obtain ⟨h1, h2⟩ := ih (n + 1) s hs
          exact ⟨h1, by omega⟩

/-- The slot keys drawn from an enumerated output list are pairwise
distinct: the enumeration index is strictly increasing. -/
theorem slotOf_keys_nodup (h : Hash) (L : List TransactionOutput) :
    ∀ n : Nat,
      (((L.enumFrom n).filterMap (slotOf h)).map Prod.fst).Nodup := by
  induction L with
  | nil => intro n; simp
  | cons out L ih =>
      intro n
      rw [List.enumFrom_cons, List.filterMap_cons]
      cases out with
      | toInput v k =>
          simp only [slotOf, List.map_cons, List.nodup_cons]
          refine ⟨?_, ih (n + 1)⟩
          intro hmem
          obtain ⟨s, hs, hkey⟩ := List.mem_map.mp hmem
          have := (slotOf_mem_facts h L (n + 1) s hs).2
          rw [hkey] at this
          omega
      | toPixel v pos col =>
          simp only [slotOf]
          exact ih (n + 1)

/-- A toInput output at a given index yields the corresponding keyed slot. -/
theorem slotOf_mem_of_get? (h : Hash) (L : List TransactionOutput) :
    ∀ (n i : Nat) (v : Credits) (k : Hash),
      L.get? i = some (.toInput v k) →
      ((h, n + i), v) ∈ (L.enumFrom n).filterMap (slotOf h) := by
  induction L with
  | nil => intro n i v k hg; simp [List.get?_eq_getElem?] at hg
  | cons out L ih =>
      intro n i v k hg
      rw [List.enumFrom_cons, List.filterMap_cons]
      cases i with
      | zero =>
          rw [List.get?_eq_getElem?] at hg
          simp only [List.getElem?_cons_zero, Option.some.injEq] at hg
          subst hg
          simp [slotOf]
      | succ j =>
          rw [List.get?_eq_getElem?, List.getElem?_cons_succ,
            ← List.get?_eq_getElem?] at hg
          have hmem := ih (n + 1) j v k hg
          have harith : n + 1 + j = n + (j + 1) := by omega
          rw [harith] at hmem
          cases hout : out <;> simp only [slotOf, hout] <;>
            first
              | exact List.mem_cons_of_mem _ hmem
              | exact hmem

/-- Restatements of the three slot lemmas for txSlots. -/
theorem txSlots_key_hash {t : Transaction} {s : (Hash × Nat) × Credits}
    (hs : s ∈ txSlots t) : s.1.1 = t.hash :=
  (slotOf_mem_facts t.hash t.data.outputs 0 s hs).1

theorem txSlots_keys_nodup (t : Transaction) :
    ((txSlots t).map Prod.fst).Nodup :=
  slotOf_keys_nodup t.hash t.data.outputs 0

theorem txSlots_mem_of_get? {t : Transaction} {i : Nat} {v : Credits}
    {k : Hash} (hg : t.data.outputs.get? i = some (.toInput v k)) :
    ((t.hash, i), v) ∈ txSlots t := by
  have := slotOf_mem_of_get? t.hash t.data.outputs 0 i v k hg
  simpa [txSlots] using this

/-- The slot keys a transaction list creates name its hashes. -/
theorem flatMap_txSlots_key_hash {ts : List Transaction}
    {key : Hash × Nat} (hmem : key ∈ (ts.flatMap txSlots).map Prod.fst) :
    key.1 ∈ ts.map Transaction.hash := by
  obtain ⟨s, hs, hkey⟩ := List.mem_map.mp hmem
  obtain ⟨t, ht, hst⟩ := List.mem_flatMap.mp hs
  subst hkey
  exact List.mem_map.mpr ⟨t, ht, (txSlots_key_hash hst).symm⟩

/-- Distinct transaction hashes give pairwise-distinct slot keys across a
transaction list. -/
theorem flatMap_txSlots_keys_nodup :
    ∀ {ts : List Transaction}, (ts.map Transaction.hash).Nodup →
      ((ts.flatMap txSlots).map Prod.fst).Nodup := by
  intro ts
  induction ts with
  | nil => intro hnd; simp
  | cons t ts ih =>
      intro hnd
      rw [List.map_cons, List.nodup_cons] at hnd
      rw [List.flatMap_cons, List.map_append]
      refine List.Nodup.append (txSlots_keys_nodup t) (ih hnd.2) ?_
      intro key hk1 hk2
      have h1 : key.1 = t.hash := by
        obtain ⟨s, hs, hkey⟩ := List.mem_map.mp hk1
        subst hkey
        exact txSlots_key_hash hs
      exact hnd.1 (h1 ▸ flatMap_txSlots_key_hash hk2)

/-- A successful find_transaction returns a chain transaction carrying the
searched hash. -/
theorem find_transaction_some {bc : Blockchain} {h : Hash} {t : Transaction}
    (hf : bc.find_transaction h = some t) :
    t ∈ bc.chainTxs ∧ t.hash = h := by
  unfold Blockchain.find_transaction at hf
  have hp := List.find?_some hf
  exact ⟨List.mem_of_find?_eq_some hf, of_decide_eq_true hp⟩

/-- A successful reference resolution pins down a chain slot with the
resolved value, and the referenced hash is a chain transaction hash. -/
theorem resolveRef_some {bc : Blockchain} {r : Hash × Nat} {v : Credits}
    (hr : bc.resolveRef r = some v) :
    (r, v) ∈ bc.chainSlots ∧ r.1 ∈ bc.chainTxHashes := by
  unfold Blockchain.resolveRef at hr
  split at hr
  · cases hr
  · rename_i t hf
    split at hr
    · rename_i v2 k hg
      have hv : v2 = v := Option.some.inj hr
      subst hv
      obtain ⟨htmem, hthash⟩ := find_transaction_some hf
      have hslot := txSlots_mem_of_get? hg
      rw [hthash] at hslot
      exact ⟨List.mem_flatMap.mpr ⟨t, htmem, by simpa using hslot⟩,
        List.mem_map.mpr ⟨t, htmem, hthash⟩⟩
    · cases hr

/-- A successful Option mapM fixes the pointwise defaulted map. -/
theorem mapM_some_map_getD {α β : Type} :
    ∀ (l : List α) (f : α → Option β) (out : List β) (d : β),
      l.mapM f = some out → l.map (fun a => (f a).getD d) = out := by
  intro l
  induction l with
  | nil =>
      intro f out d h
      simp only [List.mapM_nil, pure, Option.some.injEq] at h
      simp [← h]
  | cons a l ih =>
      intro f out d h
      rw [List.mapM_cons] at h
      cases hf : f a with
      | none => rw [hf] at h; simp [bind] at h
      | some b =>
          rw [hf] at h
          cases hm : l.mapM f with
          | none => rw [hm] at h; simp [bind] at h
          | some bs =>
              rw [hm] at h
              simp only [bind, Option.bind, pure, Option.some.injEq] at h
              subst h
              simp only [List.map_cons, hf, Option.getD_some]
              rw [ih f bs d hm]

/-- Every member of a successfully mapped list resolves. -/
theorem mapM_some_of_mem {α β : Type} :
    ∀ (l : List α) (f : α → Option β) (out : List β) (a : α),
      l.mapM f = some out → a ∈ l → ∃ b, f a = some b := by
  intro l
  induction l with
  | nil => intro f out a h hmem; cases hmem
  | cons x l ih =>
      intro f out a h hmem
      rw [List.mapM_cons] at h
      cases hf : f x with
      | none => rw [hf] at h; simp [bind] at h
      | some b =>
          rw [hf] at h
          cases hm : l.mapM f with
          | none => rw [hm] at h; simp [bind] at h
          | some bs =>
              rcases List.mem_cons.mp hmem with rfl | hmem2
              · exact ⟨b, hf⟩
              · exact ih f bs a hm hmem2

/-- Per-input resolution of a fromOutput input agrees with slot
resolution. -/
theorem resolveInput_ok_ref {bc : Blockchain} {h : Hash} {i : Nat}
    {pk : PublicKey} {s : Sig} {v : Credits}
    (hr : resolveInput bc (.fromOutput h i pk s) = .ok v) :
    bc.resolveRef (h, i) = some v := by
  simp only [resolveInput] at hr
  split at hr
  · cases hr
  · rename_i t hf
    split at hr
    · cases hr
    · rename_i v2 k hg
      cases hr
      simp [Blockchain.resolveRef, hf, ← List.get?_eq_getElem?, hg]
    · cases hr

/-- For an all-fromOutput input list, construction-time input resolution
is reference resolution against the chain. -/
theorem mapM_resolveInput_refs {bc : Blockchain} :
    ∀ (inputs : List TransactionInput) (vals : List Credits),
      inputs.all isFromOutputInput = true →
      inputs.mapM (resolveInput bc) = .ok vals →
      (inputs.filterMap fun i =>
        match i with
        | .fromOutput h idx _ _ => some (h, idx)
        | .fromReward _ _ => none).mapM bc.resolveRef = some vals := by
  intro inputs
  induction inputs with
  | nil =>
      intro vals hfo hm
      simp only [List.mapM_nil, pure, Except.pure, Except.ok.injEq] at hm
      subst hm
      rfl
  | cons inp rest ih =>
      intro vals hfo hm
      rw [List.all_cons, Bool.and_eq_true] at hfo
      cases inp with
      | fromReward a b => cases hfo.1
      | fromOutput h idx pk s =>
          rw [List.mapM_cons] at hm
          cases hri : resolveInput bc (.fromOutput h idx pk s) with
          | error e => rw [hri] at hm; simp [bind, Except.bind] at hm
          | ok v =>
              rw [hri] at hm
              cases hrest : rest.mapM (resolveInput bc) with
              | error e =>
                  rw [hrest] at hm; simp [bind, Except.bind] at hm
              | ok vs =>
                  rw [hrest] at hm
                  simp only [bind, Except.bind, pure, Except.pure,
                    Except.ok.injEq] at hm
                  subst hm
                  simp only [List.filterMap_cons]
                  rw [List.mapM_cons, resolveInput_ok_ref hri,
                    ih vs hfo.2 hrest]
                  simp [bind, pure]

/-- Destructuring a successful construction: the resolved values exist and
the stored balance and data are determined. -/
theorem try_new_ok_dest {sha3 : List Byte → Hash}
    {encodeTx : TransactionData → List Byte} {bc : Blockchain}
    {inputs : List TransactionInput} {outputs : List TransactionOutput}
    {lock_time : Nat} {t : Transaction}
    (ht : Transaction.try_new sha3 encodeTx bc inputs outputs lock_time
        = .ok t) :
    ∃ vals, inputs.mapM (resolveInput bc) = .ok vals ∧
      t.balance = vals.sum - outputTotal outputs ∧
      t.data = ⟨CURRENT_TRANSACTION_VERSION, inputs, outputs, lock_time⟩ := by
  cases hm : inputs.mapM (resolveInput bc) with
  | error e =>
      simp only [Transaction.try_new, hm, bind, Except.bind] at ht
      cases ht
  | ok vals =>
      simp only [Transaction.try_new, hm, bind, Except.bind] at ht
      by_cases hb : vals.sum - outputTotal outputs < 0
      · rw [if_pos hb] at ht
        cases ht
      · rw [if_neg hb] at ht
        cases ht
        exact ⟨vals, rfl, rfl, rfl⟩

/-- Destructuring a successful mine: the last block resolved, its height
derived, a proof was found, and the result is exactly the old state with
the sealed block inserted under its hash, the pool emptied, and the head
pointer advanced. -/
theorem mine_ok_dest {sha3 : List Byte → Hash}
    {encodeTx : TransactionData → List Byte} {blockHash : Blk → Hash}
    {bc bc2 : Blockchain} {now : Int}
    (hm : Blockchain.mine sha3 encodeTx blockHash bc now = .ok bc2) :
    ∃ lb height p,
      bc.lookupBlock bc.last_block_hash = some lb ∧
      lb.get_block_height = .ok height ∧
      Blockchain.proof_of_work sha3 { bc with transactions := [] }
          = some p ∧
      bc2 = { bc with
              blocks := insertAssoc
                (blockHash (mkMinedBlock sha3 encodeTx bc now height p))
                (mkMinedBlock sha3 encodeTx bc now height p) bc.blocks
              transactions := []
              last_block_hash :=
                blockHash (mkMinedBlock sha3 encodeTx bc now height p) } := by
  cases hlb : bc.lookupBlock bc.last_block_hash with
  | none =>
      simp only [Blockchain.mine, lookupBlock_set_transactions, hlb] at hm
      cases hm
  | some lb =>
      cases hh : lb.get_block_height with
      | error e =>
          simp only [Blockchain.mine, lookupBlock_set_transactions, hlb,
            hh] at hm
          cases hm
      | ok height =>
          cases hp : Blockchain.proof_of_work sha3
              { bc with transactions := [] } with
          | none =>
              simp only [Blockchain.mine, lookupBlock_set_transactions, hlb,
                hh, try_new_reward, hp] at hm
              cases hm
          | some p =>
              refine ⟨lb, height, p, rfl, hh, rfl, ?_⟩
              simp only [Blockchain.mine, lookupBlock_set_transactions, hlb,
                hh, try_new_reward, hp, mkMinedBlock,
                Except.ok.injEq] at hm
              exact hm.symm

/-- Inserting under a fresh key is consing: nothing needs replacing. -/
theorem insertAssoc_fresh {k : Hash} {v : Blk} {m : List (Hash × Blk)}
    (h : k ∉ m.map Prod.fst) : insertAssoc k v m = (k, v) :: m := by
  unfold insertAssoc
  congr 1
  apply List.filter_eq_self.mpr
  intro a ha
  have hne : a.1 ≠ k := fun hc => h (List.mem_map.mpr ⟨a, ha, hc⟩)
  simpa using hne

/-- The slot values of a transaction sum to its toInput output total. -/
theorem sum_txSlots_values (t : Transaction) :
    ((txSlots t).map Prod.snd).sum = (t.data.outputs.map toInputValue).sum := by
  unfold txSlots
  rw [sum_filterMap]
  have hpt : ∀ p : Nat × TransactionOutput,
      ((slotOf t.hash p).map Prod.snd).getD 0 = toInputValue p.2 := by
    intro p
    cases hp : p.2 <;> simp [slotOf, hp, toInputValue]
  rw [List.map_congr_left fun p _ => hpt p]
  have hmm : (t.data.outputs.enum.map fun p => toInputValue p.2)
      = (t.data.outputs.enum.map Prod.snd).map toInputValue := by
    rw [List.map_map]
    rfl
  rw [hmm, List.enum_map_snd]

/-- Every output value splits into its spendable and pixel parts. -/
theorem outputTotal_split (outs : List TransactionOutput) :
    outputTotal outs
      = (outs.map toInputValue).sum + (outs.map pixelValue).sum := by
  unfold outputTotal
  rw [← sum_map_add]
  refine congrArg List.sum (List.map_congr_left ?_)
  intro o ho
  cases o <;> simp [outputValue, toInputValue, pixelValue]

/-- The reward transaction references no slots, locks no pixel value, and
its single slot carries the full reward. -/
theorem mkRewardTx_facts (sha3 : List Byte → Hash)
    (encodeTx : TransactionData → List Byte) (n : Nat) (r : Credits)
    (k : Hash) (lt : Nat) :
    txRefs (mkRewardTx sha3 encodeTx n r k lt) = [] ∧
      ((mkRewardTx sha3 encodeTx n r k lt).data.outputs.map
        toInputValue).sum = r ∧
      ((mkRewardTx sha3 encodeTx n r k lt).data.outputs.map
        pixelValue).sum = 0 := by
  refine ⟨rfl, ?_, ?_⟩ <;> simp [mkRewardTx, toInputValue, pixelValue]

theorem sum_map_sub {α : Type} (l : List α) (f g : α → Int) :
    (l.map fun a => f a - g a).sum = (l.map f).sum - (l.map g).sum := by
  induction l with
  | nil => simp
  | cons a l ih =>
      simp only [List.map_cons, List.sum_cons, ih]
      ring

/-- The mine step preserves the ledger invariant, stated over abstract
sealed-block components: the new block appends one reward transaction
whose spendable output value is the 1000-credit base plus the drained
balances, which references no slots and locks no pixel value; the block
hash is fresh and the resulting hash and reference lists are
duplicate-free. -/
theorem ledgerInv_mine_generic (bcp : Blockchain) (nh : Hash) (nb : Blk)
    (rt : Transaction)
    (hnbtx : nb.transactions = bcp.transactions ++ [rt])
    (hrt_refs : txRefs rt = [])
    (hrt_in : (rt.data.outputs.map toInputValue).sum
        = 1000 + (bcp.transactions.map Transaction.balance).sum)
    (hrt_pix : (rt.data.outputs.map pixelValue).sum = 0)
    (hinv : LedgerInv bcp)
    (hfresh : nh ∉ bcp.blocks.map Prod.fst)
    (hh : (({ bcp with
        blocks := insertAssoc nh nb bcp.blocks
        transactions := []
        last_block_hash := nh } : Blockchain).chainTxHashes
        ++ ({ bcp with
          blocks := insertAssoc nh nb bcp.blocks
          transactions := []
          last_block_hash := nh } : Blockchain).poolTxHashes).Nodup)
    (hrefs : (({ bcp with
        blocks := insertAssoc nh nb bcp.blocks
        transactions := []
        last_block_hash := nh } : Blockchain).chainRefs
        ++ ({ bcp with
          blocks := insertAssoc nh nb bcp.blocks
          transactions := []
          last_block_hash := nh } : Blockchain).poolRefs).Nodup) :
    LedgerInv { bcp with
      blocks := insertAssoc nh nb bcp.blocks
      transactions := []
      last_block_hash := nh } := by
  obtain ⟨ihCons, ihPool, ihClosed, ihNodupH, ihNodupR⟩ := hinv
  generalize hREC : ({ bcp with
      blocks := insertAssoc nh nb bcp.blocks
      transactions := []
      last_block_hash := nh } : Blockchain)
      = REC at hh hrefs ⊢
  have hblocks : REC.blocks = (nh, nb) :: bcp.blocks := by
    rw [← hREC]
    exact insertAssoc_fresh hfresh
  have hpool : REC.transactions = [] := by rw [← hREC]
  have hchain : REC.chainTxs
      = (bcp.transactions ++ [rt]) ++ bcp.chainTxs := by
    unfold Blockchain.chainTxs
    rw [hblocks]
    simp [Blockchain.chainTxs, hnbtx]
  have hrefs2 : REC.chainRefs
      = bcp.transactions.flatMap txRefs ++ bcp.chainRefs := by
    unfold Blockchain.chainRefs
    rw [hchain]
    simp [Blockchain.chainRefs, hrt_refs]
  have hslots2 : REC.chainSlots
      = (bcp.transactions ++ [rt]).flatMap txSlots ++ bcp.chainSlots := by
    unfold Blockchain.chainSlots
    rw [hchain]
    simp [Blockchain.chainSlots]
  have hhashes2 : REC.chainTxHashes
      = (bcp.transactions ++ [rt]).map Transaction.hash
          ++ bcp.chainTxHashes := by
    unfold Blockchain.chainTxHashes
    rw [hchain]
    simp [Blockchain.chainTxHashes]
  have hpoolhashes : REC.poolTxHashes = [] := by
    unfold Blockchain.poolTxHashes
    rw [hpool]
    rfl
  have hpoolrefs : REC.poolRefs = [] := by
    unfold Blockchain.poolRefs
    rw [hpool]
    rfl
  have hndh : ((bcp.transactions ++ [rt]).map Transaction.hash
      ++ bcp.chainTxHashes).Nodup := by
    have h2 := hh
    rw [hpoolhashes, List.append_nil, hhashes2] at h2
    exact h2
  have hndr : (bcp.transactions.flatMap txRefs ++ bcp.chainRefs).Nodup := by
    have h2 := hrefs
    rw [hpoolrefs, List.append_nil, hrefs2] at h2
    exact h2
  have hndh3 := List.nodup_append.mp hndh
  have hndr3 := List.nodup_append.mp hndr
  have hbcpHashesNodup : bcp.chainTxHashes.Nodup :=
    (List.nodup_append.mp ihNodupH).1
  have hres_all : ∀ r ∈ bcp.transactions.flatMap txRefs,
      ∃ v, bcp.resolveRef r = some v := by
    intro r hr3
    obtain ⟨td, htd, hrtd⟩ := List.mem_flatMap.mp hr3
    obtain ⟨_, vals, hmv, _⟩ := ihPool td htd
    exact mapM_some_of_mem _ _ vals r hmv hrtd
  have hmem_slots : ∀ r ∈ bcp.transactions.flatMap txRefs,
      (r, (bcp.resolveRef r).getD 0) ∈ bcp.chainSlots := by
    intro r hr3
    obtain ⟨v, hv⟩ := hres_all r hr3
    have hms := (resolveRef_some hv).1
    rw [hv]
    exact hms
  have href_hash : ∀ r ∈ bcp.transactions.flatMap txRefs,
      r.1 ∈ bcp.chainTxHashes := by
    intro r hr3
    obtain ⟨v, hv⟩ := hres_all r hr3
    exact (resolveRef_some hv).2
  have hsum_refs : ∀ td ∈ bcp.transactions,
      ((txRefs td).map fun r => (bcp.resolveRef r).getD 0).sum
        = td.balance + outputTotal td.data.outputs := by
    intro td htd
    obtain ⟨_, vals, hmv, hbal⟩ := ihPool td htd
    rw [mapM_some_map_getD _ _ vals 0 hmv]
    rw [hbal]
    ring
  have hnew_unspent : ∀ s ∈ (bcp.transactions ++ [rt]).flatMap txSlots,
      s.1 ∉ REC.chainRefs := by
    intro s hs hmem
    have hkey : s.1.1 ∈ (bcp.transactions ++ [rt]).map Transaction.hash := by
      obtain ⟨tt, htt, hstt⟩ := List.mem_flatMap.mp hs
      exact List.mem_map.mpr ⟨tt, htt, (txSlots_key_hash hstt).symm⟩
    have hnotold : s.1.1 ∉ bcp.chainTxHashes := fun hc =>
      hndh3.2.2 hkey hc
    rw [hrefs2] at hmem
    rcases List.mem_append.mp hmem with hd | hc
    · exact hnotold (href_hash s.1 hd)
    · exact hnotold (ihClosed s.1 hc)
  refine ⟨?_, ?_, ?_, hh, hrefs⟩
  · -- conservation
    unfold ConsInv
    rw [unspentValueSum_eq, hslots2, List.map_append, List.sum_append]
    have hSnew : ((bcp.transactions ++ [rt]).flatMap txSlots).map
          (fun s => if s.1 ∈ REC.chainRefs then 0 else s.2)
        = ((bcp.transactions ++ [rt]).flatMap txSlots).map Prod.snd :=
      List.map_congr_left fun s hs => by rw [if_neg (hnew_unspent s hs)]
    rw [hSnew, sum_map_flatMap]
    have hSnew2 : ((bcp.transactions ++ [rt]).map
          fun t => ((txSlots t).map Prod.snd).sum).sum
        = ((bcp.transactions ++ [rt]).map
            fun t => (t.data.outputs.map toInputValue).sum).sum := by
      exact congrArg List.sum
        (List.map_congr_left fun t _ => sum_txSlots_values t)
    rw [hSnew2, List.map_append, List.sum_append]
    have hpoint : ∀ s ∈ bcp.chainSlots,
        (if s.1 ∈ REC.chainRefs then (0 : Int) else s.2)
          = (if s.1 ∈ bcp.chainRefs then (0 : Int) else s.2)
            - (if s.1 ∈ bcp.transactions.flatMap txRefs then s.2 else 0) := by
      intro s hs
      rw [hrefs2]
      by_cases h1 : s.1 ∈ bcp.transactions.flatMap txRefs
      · have h2 : s.1 ∉ bcp.chainRefs := fun hc => hndr3.2.2 h1 hc
        simp [List.mem_append, h1, h2]
      · by_cases h2 : s.1 ∈ bcp.chainRefs <;>
          simp [List.mem_append, h1, h2]
    rw [List.map_congr_left hpoint, sum_map_sub]
    have hspent : (bcp.chainSlots.map
          fun s => if s.1 ∈ bcp.transactions.flatMap txRefs
            then s.2 else 0).sum
        = ((bcp.transactions.flatMap txRefs).map
            fun r => (bcp.resolveRef r).getD 0).sum :=
      sum_if_mem_eq bcp.chainSlots (bcp.transactions.flatMap txRefs) _
        (flatMap_txSlots_keys_nodup hbcpHashesNodup) hndr3.1 hmem_slots
    rw [hspent, sum_map_flatMap]
    have hspent2 : (bcp.transactions.map
          fun td => ((txRefs td).map
            fun r => (bcp.resolveRef r).getD 0).sum).sum
        = (bcp.transactions.map
            fun td => td.balance + outputTotal td.data.outputs).sum :=
      congrArg List.sum (List.map_congr_left fun td htd => hsum_refs td htd)
    rw [hspent2, sum_map_add]
    have hOsplit : (bcp.transactions.map
          fun td => outputTotal td.data.outputs).sum
        = (bcp.transactions.map
            fun td => (td.data.outputs.map toInputValue).sum).sum
          + (bcp.transactions.map
            fun td => (td.data.outputs.map pixelValue).sum).sum := by
      rw [← sum_map_add]
      exact congrArg List.sum
        (List.map_congr_left fun td _ => outputTotal_split td.data.outputs)
    have hlen : REC.blocks.length = bcp.blocks.length + 1 := by
      rw [hblocks]
      rfl
    have hpix : REC.pixelTotal
        = ((bcp.transactions ++ [rt]).map Transaction.pixelTotalTx).sum
          + bcp.pixelTotal := by
      unfold Blockchain.pixelTotal
      rw [hchain]
      simp [Blockchain.pixelTotal]
      ring
    have hpixsplit : ((bcp.transactions ++ [rt]).map
          Transaction.pixelTotalTx).sum
        = (bcp.transactions.map
            fun td => (td.data.outputs.map pixelValue).sum).sum := by
      rw [List.map_append, List.sum_append]
      have h1 : (List.map Transaction.pixelTotalTx [rt]).sum = 0 := by
        simp [Transaction.pixelTotalTx, hrt_pix]
      rw [h1]
      have h2 : bcp.transactions.map Transaction.pixelTotalTx
          = bcp.transactions.map
              fun td => (td.data.outputs.map pixelValue).sum :=
        List.map_congr_left fun td _ => rfl
      rw [h2]
      ring
    have hold : (bcp.chainSlots.map
          fun s => if s.1 ∈ bcp.chainRefs then (0 : Int) else s.2).sum
        = 1000 * ((bcp.blocks.length : Int) - 1) - bcp.pixelTotal := by
      rw [← unspentValueSum_eq]
      exact ihCons
    have hone : (List.map
        (fun t => (List.map toInputValue t.data.outputs).sum) [rt]).sum
        = (rt.data.outputs.map toInputValue).sum := by simp
    rw [hold, hone, hrt_in, hpix, hpixsplit, hOsplit, hlen]
    push_cast
    ring
  · -- pool empty
    intro t ht
    rw [hpool] at ht
    cases ht
  · -- refs closed
    intro r hr3
    rw [hrefs2] at hr3
    rw [hhashes2]
    rcases List.mem_append.mp hr3 with hd | hc
    · exact List.mem_append.mpr (Or.inr (href_hash r hd))
    · exact List.mem_append.mpr (Or.inr (ihClosed r hc))

/-- The inductive invariant holds along every collision-free,
double-spend-free history. -/
theorem goodReach_ledgerInv {sha3 : List Byte → Hash}
    {encodeTx : TransactionData → List Byte} {blockHash : Blk → Hash}
    {bc : Blockchain} (hr : GoodReach sha3 encodeTx blockHash bc) :
    LedgerInv bc := by
  induction hr with
  | init now mph =>
      refine ⟨?_, ?_, ?_, ?_, ?_⟩
      · simp [ConsInv, Blockchain.new, Blockchain.unspentValueSum,
          Blockchain.get_all_unspent_outputs, Blockchain.chainTxs,
          Blockchain.pixelTotal]
      · intro t ht
        simp [Blockchain.new] at ht
      · intro r hr2
        simp [Blockchain.new, Blockchain.chainRefs,
          Blockchain.chainTxs] at hr2
      · simp [Blockchain.new, Blockchain.chainTxHashes,
          Blockchain.poolTxHashes, Blockchain.chainTxs]
      · simp [Blockchain.new, Blockchain.chainRefs, Blockchain.poolRefs,
          Blockchain.chainTxs]
  | @accept bcp bc2 inputs outputs lock_time t hracc ht hn hfo hh hrefs ih =>
      have hbc2 : bc2
          = { bcp with transactions := bcp.transactions ++ [t] } :=
        (Except.ok.inj hn).symm
      subst hbc2
      obtain ⟨vals, hm, hbal, hdata⟩ := try_new_ok_dest ht
      have hin : t.data.inputs = inputs := by rw [hdata]
      have hout : t.data.outputs = outputs := by rw [hdata]
      refine ⟨ih.1, ?_, ih.2.2.1, hh, hrefs⟩
      intro t2 ht2
      rcases List.mem_append.mp ht2 with hold | hnew
      · exact ih.2.1 t2 hold
      · have hteq : t2 = t := by simpa using hnew
        subst hteq
        refine ⟨by rw [hin]; exact hfo, vals, ?_, ?_⟩
        · have hconv := mapM_resolveInput_refs inputs vals hfo hm
          unfold txRefs
          rw [hin]
          exact hconv
        · rw [hbal, hout]
  | @mineStep bcp bc2 now hracc hm hfb hh hrefs ih =>
      obtain ⟨lb, height, p, hlb, hhgt, hp, hbc2⟩ := mine_ok_dest hm
      subst hbc2
      exact ledgerInv_mine_generic bcp
        (blockHash (mkMinedBlock sha3 encodeTx bcp now height p))
        (mkMinedBlock sha3 encodeTx bcp now height p)
        (mkRewardTx sha3 encodeTx (height + 1)
          (1000 + (bcp.transactions.map Transaction.balance).sum)
          bcp.miner_public_key_hash BLOCK_LOCK_TIME)
        rfl rfl
        (mkRewardTx_facts sha3 encodeTx (height + 1)
          (1000 + (bcp.transactions.map Transaction.balance).sum)
          bcp.miner_public_key_hash BLOCK_LOCK_TIME).2.1
        (mkRewardTx_facts sha3 encodeTx (height + 1)
          (1000 + (bcp.transactions.map Transaction.balance).sum)
          bcp.miner_public_key_hash BLOCK_LOCK_TIME).2.2
        ih hfb hh hrefs

/-- Claim C3 (amended): the conservation law that actually holds on the
code.  For every ledger reachable from a fresh blockchain by accepted
transactions and mined blocks in which accepted transactions spend only
fromOutput inputs, no output slot is ever referenced twice across chain
and pool (double-spend freedom), and transaction and block hashes never
collide (GoodReach), the total unspent toInput value across the chain
equals 1000 credits — the base subsidy — per mined block (every block
except genesis), minus the total value locked into toPixel outputs.  The
full minted reward of a block exceeds the base subsidy by the drained
transactions' balance surplus, which is recycled fee value taken from
already-counted unspent outputs, not newly created value — which is
exactly where the claim as stated overcounts (see the counterexample). -/
theorem claim_C3_conservation_amended (sha3 : List Byte → Hash)
    (encodeTx : TransactionData → List Byte) (blockHash : Blk → Hash)
    (bc : Blockchain) (hr : GoodReach sha3 encodeTx blockHash bc) :
    bc.unspentValueSum
      = 1000 * ((bc.blocks.length : Int) - 1) - bc.pixelTotal :=
  (goodReach_ledgerInv hr).1

/-- Witness for the amended claim C3: the chain with one mined block under
the toy primitives — unspent value 1000 = 1000 credits per one mined
block, no pixel value. -/
theorem claim_C3_witness :
    bc1.unspentValueSum
      = 1000 * ((bc1.blocks.length : Int) - 1) - bc1.pixelTotal :=
  claim_C3_conservation_amended sha3toy encodeTxToy blockHashToy bc1
    (GoodReach.mineStep 0 (GoodReach.init 0 mph0) (by decide) (by decide)
      (by decide) (by decide))

end PlaceCoin
